import Mathlib

/-!
# pocketmine-helm plugin downloader: the reconciliation controller

A shallow embedding of `cmd/plugin-downloader/watcher/watch.go` together with the
parts of the Go standard library it calls (`hash/crc32`, `path`, `os`, `net/http`),
and the properties of the controller proved over it.

Conventions.
* A Go `string` / `[]byte` is a list of bytes (`GoString`).
* A `uint32` is a natural number below `2 ^ 32`; every operation used on one
  (xor, shift right, table lookup) stays below that bound, complement is
  xor with `0xffffffff`.
* The filesystem, the store and the network are outside the program.  The state
  the program can observe is the record `World`; what each external call answers
  in one run of `reconcile` is the record `Env`, one field for each call site, so
  that every failure branch of the source is reachable.
-/

set_option maxRecDepth 100000

namespace PluginDownloader

/-! ## Bytes and strings -/

abbrev Byte := Fin 256

abbrev GoString := List Byte

/-- The byte of `/`. -/
def slash : Byte := 47

/-- The byte of `.`. -/
def dot : Byte := 46

/-- The string `..`. -/
def dotdot : GoString := [dot, dot]

/-- The string `.phar`, the constant part of `fmt.Sprintf("%s.phar", id.name)`. -/
def pharSuffix : GoString := [46, 112, 104, 97, 114]

/-! ## `hash/crc32` (standard library) -/

/-- The constant `crc32.IEEE`, the reversed IEEE polynomial. -/
def IEEE : Nat := 0xedb88320

/-- One round of the inner loop of `simpleMakeTable`:
`if crc&1 == 1 { crc = (crc >> 1) ^ poly } else { crc >>= 1 }`. -/
def tableStep (poly crc : Nat) : Nat :=
  if crc &&& 1 = 1 then (crc >>> 1) ^^^ poly else crc >>> 1

/-- The lookup table of `simpleMakeTable(poly)`: entry `i` is `i` after eight rounds. -/
def simpleMakeTable (poly : Nat) (i : Nat) : Nat :=
  (tableStep poly)^[8] i

/-- The loop body of `simpleUpdate`: `crc = tab[byte(crc)^v] ^ (crc >> 8)`. -/
def updateByte (tab : Nat → Nat) (crc : Nat) (v : Byte) : Nat :=
  tab ((crc % 256) ^^^ v.val) ^^^ (crc >>> 8)

/-- The function `simpleUpdate(crc, tab, p)`:
`crc = ^crc; for _, v := range p { ... }; return ^crc`. -/
def simpleUpdate (crc : Nat) (tab : Nat → Nat) (p : List Byte) : Nat :=
  (p.foldl (updateByte tab) (crc ^^^ 0xffffffff)) ^^^ 0xffffffff

/-- The running state of a `crc32` hash (`digest.crc`; the table is the IEEE one). -/
structure digest where
  crc : Nat
deriving DecidableEq, Repr

/-- The constructor `crc32.NewIEEE()`. -/
def NewIEEE : digest := ⟨0⟩

/-- The method `digest.Write(p)`: it cannot fail. -/
def digest.Write (d : digest) (p : List Byte) : digest :=
  ⟨simpleUpdate d.crc (simpleMakeTable IEEE) p⟩

/-- The method `digest.Sum32()`. -/
def digest.Sum32 (d : digest) : Nat := d.crc

/-! ## CRC-32 as the specification names it

The bit-serial definition of the checksum: initial value and final xor `0xffffffff`,
bits taken least significant first, reversed polynomial `0xedb88320`. -/

/-- One bit of the bit-serial CRC: shift right, and subtract the polynomial when
the bit shifted out is set. -/
def crcBit (crc : Nat) : Nat :=
  if crc % 2 = 1 then (crc / 2) ^^^ 0xedb88320 else crc / 2

/-- One byte of the bit-serial CRC: xor the byte into the low end, then eight bits. -/
def crcByte (crc : Nat) (b : Byte) : Nat :=
  crcBit^[8] (crc ^^^ b.val)

/-- CRC-32 (IEEE polynomial) of one byte sequence. -/
def crc32IEEE (data : List Byte) : Nat :=
  (data.foldl crcByte 0xffffffff) ^^^ 0xffffffff

/-! ## `path` (standard library) -/

/-- One element of the path in `path.Clean`, applied to the elements kept so far
(last kept element first).  Empty elements (doubled slashes) and `.` are dropped;
`..` removes the preceding element when that is not itself `..`, is dropped at the
root of a rooted path, and is kept otherwise; anything else is kept. -/
def cleanStep (rooted : Bool) (stack : List GoString) (seg : GoString) : List GoString :=
  if seg = [] ∨ seg = [dot] then stack
  else if seg = dotdot then
    match stack with
    | [] => if rooted then [] else [dotdot]
    | top :: rest => if top = dotdot then (if rooted then stack else dotdot :: stack) else rest
  else seg :: stack

/-- The elements kept by `path.Clean`, last one first. -/
def cleanStack (rooted : Bool) (p : GoString) : List GoString :=
  (p.splitOn slash).foldl (cleanStep rooted) []

/-- The path written back from its kept elements. -/
def render (rooted : Bool) (stack : List GoString) : GoString :=
  (if rooted then [slash] else []) ++ [slash].intercalate stack.reverse

/-- Whether a path starts with a slash (`rooted := path[0] == '/'`). -/
def isRooted (p : GoString) : Bool :=
  match p with
  | c :: _ => decide (c = slash)
  | [] => false

/-- The function `path.Clean`: the shortest equivalent path by lexical processing;
the empty result is written `.`. -/
def Clean (p : GoString) : GoString :=
  if p = [] then [dot]
  else
    let out := render (isRooted p) (cleanStack (isRooted p) p)
    if out = [] then [dot] else out

/-- The function `path.Join` at two arguments: empty elements are ignored, the others are
joined by a slash and cleaned; the result is empty when both are empty. -/
def Join (a b : GoString) : GoString :=
  if a = [] ∧ b = [] then []
  else if a = [] then Clean b
  else if b = [] then Clean a
  else Clean (a ++ [slash] ++ b)

/-! ## The resource (`pkg/apis/pocketmine/v1alpha1/types.go`) -/

/-- The struct `PluginHttpSource`. -/
structure PluginHttpSource where
  Url : GoString
  TimeoutSeconds : Int
deriving DecidableEq

/-- The struct `PluginSource`: `Http` is a pointer, nil is `none`; `Data` is a byte slice. -/
structure PluginSource where
  Http : Option PluginHttpSource
  Data : List Byte
deriving DecidableEq

/-- The type `DependencyPolicy`. -/
inductive DependencyPolicy where
  | AutoCreate
  | FailOnMissing
deriving DecidableEq

/-- The struct `PluginSpec`. -/
structure PluginSpec where
  Source : PluginSource
  DependencyPolicy : DependencyPolicy
deriving DecidableEq

/-- The struct `PluginStatus`: `ExpectedChecksum` is a `*uint32`, nil is `none`. -/
structure PluginStatus where
  ExpectedChecksum : Option Nat
deriving DecidableEq

/-- The struct `Plugin` (the metadata that is used: namespace and name). -/
structure Plugin where
  Namespace : GoString
  Name : GoString
  Spec : PluginSpec
  Status : PluginStatus
deriving DecidableEq

/-! ## The change coalescer (`pluginEventHandler`) -/

/-- The struct `resourceIdentifier`; the field `namespace` is written `nspace`. -/
structure resourceIdentifier where
  nspace : GoString
  name : GoString
deriving DecidableEq

/-- The function `newResourceIdentifier`. -/
def newResourceIdentifier (meta : Plugin) : resourceIdentifier :=
  ⟨meta.Namespace, meta.Name⟩

/-- The struct `pluginEventHandler`.  `set` is the key set of the Go map; `updateNotifier`
is the number of values buffered in the channel, whose capacity is `notifierCap`.  The
mutex is not a field: `clear` and `notify` hold it for their whole body, so each is one
step on this state. -/
structure pluginEventHandler where
  set : Finset resourceIdentifier
  updateNotifier : Nat

/-- The capacity of `updateNotifier`, from `make(chan struct{}, 1)` in `New`. -/
def notifierCap : Nat := 1

/-- The handler built by `New`: an empty map and an empty channel. -/
def newHandler : pluginEventHandler := ⟨∅, 0⟩

/-- The method `pluginEventHandler.clear`: the returned map (nil and the empty map are
both the empty set) and the handler afterwards. -/
def pluginEventHandler.clear (h : pluginEventHandler) :
    Finset resourceIdentifier × pluginEventHandler :=
  if h.set.card = 0 then (∅, h)
  else (h.set, { h with set := ∅ })

/-- The method `pluginEventHandler.notify`: insert the identity, then a send on the
channel that is skipped (the `default` branch of the `select`) when the buffer is full. -/
def pluginEventHandler.notify (h : pluginEventHandler) (obj : Plugin) : pluginEventHandler :=
  { set := insert (newResourceIdentifier obj) h.set
    updateNotifier :=
      if h.updateNotifier < notifierCap then h.updateNotifier + 1 else h.updateNotifier }

/-- A run of `notify` calls, in order. -/
def notifyAll (h : pluginEventHandler) (objs : List Plugin) : pluginEventHandler :=
  objs.foldl pluginEventHandler.notify h

/-- The handler and the consumer loop of `Controller.Run`: `draining` holds between the
receive from `updateNotifier` and the `clear()` that follows it. -/
structure LoopState where
  handler : pluginEventHandler
  draining : Bool

/-- The state after `New`, when `Run` reaches its `select` for the first time. -/
def LoopState.init : LoopState := ⟨newHandler, false⟩

/-- The steps of the producers and of the consumer. -/
inductive Action where
  | notify (obj : Plugin)
  | receive
  | clear

/-- One step: `notify` from any state; `receive` when the consumer waits in the `select`
and the channel holds a value; `clear` right after a receive.  A `notify` is one step
because it holds the mutex from the insertion to the send and the consumer reads the map
only inside `clear`, under the same mutex; the send itself never waits (`select` with a
`default` branch). -/
inductive Step : LoopState → Action → LoopState → Prop where
  | notify (s : LoopState) (obj : Plugin) :
      Step s (.notify obj) ⟨s.handler.notify obj, s.draining⟩
  | receive (s : LoopState) (hw : s.draining = false) (hn : 0 < s.handler.updateNotifier) :
      Step s .receive ⟨{ s.handler with updateNotifier := s.handler.updateNotifier - 1 }, true⟩
  | clear (s : LoopState) (hd : s.draining = true) :
      Step s .clear ⟨s.handler.clear.2, false⟩

/-- The states reached from the initial one by any interleaving of steps. -/
inductive Reachable : LoopState → Prop where
  | init : Reachable LoopState.init
  | step {s t : LoopState} (a : Action) : Reachable s → Step s a t → Reachable t

/-! ## The world outside the program -/

/-- The error values the program tells apart: `fs.ErrNotExist`, "already exists"
(`os.IsExist`), and every other error. -/
inductive OSError where
  | notExist
  | alreadyExists
  | other
deriving DecidableEq, Repr

/-- The places where `reconcile` and `getPath` call `klog.Errorf`. -/
inductive LogKind where
  | mkdir
  | fetch
  | unlink
  | stat
  | checksum
  | download
  | update
deriving DecidableEq, Repr

/-- What one run does to the outside, in order. -/
inductive Event where
  /-- A call of `os.Remove`. -/
  | remove (path : GoString)
  /-- A call of `downloadPlugin`. -/
  | downloadPlugin (path : GoString)
  /-- A call of `ioutil.WriteFile`. -/
  | writeFile (path : GoString)
  /-- A request sent by `client.Do`. -/
  | httpGet (url : GoString)
  /-- A call of `os.Create`. -/
  | create (path : GoString)
  /-- A call of `pluginsClient(namespace).Update` with the checksum it carries. -/
  | update (id : resourceIdentifier) (cksum : Nat)
  /-- A call of `klog.Errorf`. -/
  | logError (kind : LogKind)
deriving DecidableEq

/-- The filesystem as the program sees it, and the record of what the run did:
`files p` is the content of the regular file at `p`, `dirs p` tells whether a
directory is at `p`.  Paths are compared as strings; every path the program uses comes
out of `path.Join`, hence is clean.  File modes, and whether a directory is empty, are not
part of the state: a call that would fail on them fails through `Env`. -/
structure World where
  files : GoString → Option (List Byte)
  dirs : GoString → Bool
  events : List Event

/-- Append one event to the record. -/
def World.emit (w : World) (e : Event) : World :=
  { w with events := w.events ++ [e] }

/-- The answer of `pluginsLister.Plugins(ns).Get(name)`. -/
inductive GetResult where
  | found (plugin : Plugin)
  | notFound
  | otherError

/-- The answer of `client.Do(req)`: an error, or a response with its status code
and the bytes of its body. -/
inductive HttpResult where
  | transportError
  | response (StatusCode : Int) (Body : List Byte)

/-- The answer of `Update`. -/
inductive UpdateResult where
  | ok
  | conflict
  | otherError
deriving DecidableEq

/-- How writing the destination goes: without fault, the open fails (nothing is
touched), or the write stops with an error after `k` bytes of a truncated file. -/
inductive WriteFault where
  | none
  | openFails
  | short (k : Nat)

/-- How reading one file goes: whether `os.Open` fails, and for the successive calls of
`handle.Read` either an error (`none`) or a size request (`some k`, see `readLen`); calls
beyond the list fill the buffer. -/
structure ReadPlan where
  openFails : Bool
  reads : List (Option Nat)

/-- A read plan in which nothing fails and the reads have the given sizes. -/
def ReadPlan.ofSizes (sizes : List Nat) : ReadPlan := ⟨false, sizes.map some⟩

/-- What every external call of one run of `reconcile` answers, one field for each
call site, in source order. -/
structure Env where
  /-- Whether `os.Mkdir` fails with an error other than "already exists". -/
  mkdirFails : Bool
  get : GetResult
  /-- Whether `os.Stat` fails with an error other than "not exist". -/
  statFails : Bool
  /-- Whether `os.Remove` fails with an error other than "not exist" (a missing permission,
  a directory that is not empty). -/
  removeFails : Bool
  /-- The reads of the checksum taken before the download. -/
  firstSum : ReadPlan
  /-- Whether `http.NewRequestWithContext` fails. -/
  requestFails : Bool
  http : HttpResult
  write : WriteFault
  /-- The reads of the checksum taken after the download. -/
  secondSum : ReadPlan
  update : UpdateResult

/-- An environment in which no call fails, for the given answers of store and server. -/
def Env.quiet (get : GetResult) (http : HttpResult) : Env :=
  { mkdirFails := false, get := get, statFails := false, removeFails := false,
    firstSum := ⟨false, []⟩, requestFails := false, http := http, write := .none,
    secondSum := ⟨false, []⟩, update := .ok }

-- Equality of results is decidable, so that runs on concrete inputs can be evaluated.
deriving instance DecidableEq for Except

/-! ## `os` (standard library) on the world -/

/-- The call `os.Stat(path)`, its error only: it succeeds on a regular file and on a
directory alike. -/
def osStat (fails : Bool) (w : World) (path : GoString) : Option OSError :=
  if fails then some .other
  else if (w.files path).isSome ∨ w.dirs path then none
  else some .notExist

/-- The call `os.Mkdir(path, perm)`. -/
def osMkdir (fails : Bool) (w : World) (path : GoString) : Option OSError × World :=
  if fails then (some .other, w)
  else if w.dirs path ∨ (w.files path).isSome then (some .alreadyExists, w)
  else (none, { w with dirs := Function.update w.dirs path true })

/-- The call `os.Remove(path)`: it removes a regular file, or a directory, which it can
only when that is empty.  `fails` is the answer "an error other than not exist": a missing
permission, or a directory at the path that is not empty (`ENOTEMPTY`). -/
def osRemove (fails : Bool) (w : World) (path : GoString) : Option OSError × World :=
  let w := w.emit (.remove path)
  if fails then (some .other, w)
  else if (w.files path).isSome then (none, { w with files := Function.update w.files path none })
  else if w.dirs path then (none, { w with dirs := Function.update w.dirs path false })
  else (some .notExist, w)

/-- Write `data` to `path` through a freshly truncated file: the common part of
`ioutil.WriteFile` and of `os.Create` followed by `io.Copy`.  The result tells whether an
error is returned. -/
def writeTruncating (fault : WriteFault) (w : World) (path : GoString) (data : List Byte) :
    Bool × World :=
  match fault with
  | .openFails => (true, w)
  | .short k => (true, { w with files := Function.update w.files path (some (data.take k)) })
  | .none => (false, { w with files := Function.update w.files path (some data) })

/-- The size of the buffer in `crc32File`. -/
def bufSize : Nat := 4096

/-- The number of bytes one successful `handle.Read(buf)` returns: at least one, at most
the buffer, at most what is left of the file. -/
def readLen (k : Nat) (remaining : Nat) : Nat :=
  min (k % bufSize + 1) remaining

/-! ## `watch.go` -/

/-- The struct `Controller`: the mount path; the store, the HTTP client and the
informer are answered by `Env`. -/
structure Controller where
  mountPath : GoString

/-- The function `fileExists`: true for whatever `os.Stat` finds, a regular file or a
directory. -/
def fileExists (statFails : Bool) (w : World) (path : GoString) : Bool × Option OSError :=
  let err := osStat statFails w path
  if err = none then (true, none)
  else if err = some .notExist then (false, none)
  else (false, err)

/-- What the next call of `handle.Read` answers under a plan: the head of the list, or a
full buffer when the list is used up. -/
def nextRead : List (Option Nat) → Option Nat
  | [] => some (bufSize - 1)
  | r :: _ => r

/-- The read loop of `crc32File`, on the bytes of the file not yet read.  Each round
calls `handle.Read(buf)`: an error returns it, end of file leaves the loop, a chunk is
written to the hash.  `fuel` bounds the rounds; `crc32File` passes more than the loop
can use. -/
def readLoop : Nat → List (Option Nat) → List Byte → digest → Except OSError digest
  | 0, _, _, _ => .error .other
  | fuel + 1, plan, rest, hash =>
    match nextRead plan with
    | none => .error .other
    | some k =>
      if rest = [] then .ok hash
      else
        let n := readLen k rest.length
        readLoop fuel plan.tail (rest.drop n) (hash.Write (rest.take n))

/-- The function `crc32File(id, path)`.  On a directory `os.Open` succeeds and the first
`handle.Read` fails; on nothing `os.Open` fails with "not exist". -/
def crc32File (plan : ReadPlan) (id : GoString) (w : World) (path : GoString) :
    Except OSError Nat :=
  let hash := NewIEEE.Write id
  if plan.openFails then .error .other
  else
    match w.files path with
    | none => .error (if w.dirs path then .other else .notExist)
    | some content =>
      match readLoop (content.length + 1) plan.reads content hash with
      | .error e => .error e
      | .ok hash => .ok hash.Sum32

/-- The errors `downloadPlugin` returns. -/
inductive DownloadError where
  | writeFile
  | requestCreation
  | request
  | status (code : Int)
  | openForWrite
  | writing
  | invalidSource
deriving DecidableEq

/-- The function `downloadPlugin(ctx, client, source, path)`. -/
def downloadPlugin (env : Env) (source : PluginSource) (path : GoString) (w : World) :
    Option DownloadError × World :=
  let w := w.emit (.downloadPlugin path)
  if source.Data.length > 0 then
    let (failed, w) := writeTruncating env.write (w.emit (.writeFile path)) path source.Data
    (if failed then some .writeFile else none, w)
  else
    match source.Http with
    | some http =>
      if env.requestFails then (some .requestCreation, w)
      else
        let w := w.emit (.httpGet http.Url)
        match env.http with
        | .transportError => (some .request, w)
        | .response StatusCode Body =>
          if StatusCode < 200 ∨ StatusCode ≥ 300 then (some (.status StatusCode), w)
          else
            let w := w.emit (.create path)
            match env.write with
            | .openFails => (some .openForWrite, w)
            | fault =>
              let (failed, w) := writeTruncating fault w path Body
              (if failed then some .writing else none, w)
    | none => (some .invalidSource, w)

/-- The method `Controller.getPath`: the path of the identity, and the world after the
`os.Mkdir` of the namespace directory. -/
def Controller.getPath (c : Controller) (mkdirFails : Bool) (w : World)
    (id : resourceIdentifier) : GoString × World :=
  let namespacePath := Join c.mountPath id.nspace
  let (err, w) := osMkdir mkdirFails w namespacePath
  let w := if err ≠ none ∧ err ≠ some .alreadyExists then w.emit (.logError .mkdir) else w
  (Join namespacePath (id.name ++ pharSuffix), w)

/-- The hash base of `reconcile`: the URL when an HTTP source is set, else empty. -/
def hashBaseOf (plugin : Plugin) : GoString :=
  match plugin.Spec.Source.Http with
  | some http => http.Url
  | none => []

/-- Lines 249 to 269 of `Controller.reconcile`: download, take the checksum again, and
write it to the store when it is new. -/
def Controller.downloadAndReport (env : Env) (id : resourceIdentifier) (plugin : Plugin)
    (path : GoString) (w : World) : World :=
  match downloadPlugin env plugin.Spec.Source path w with
  | (some _, w) => w.emit (.logError .download)
  | (none, w) =>
    match crc32File env.secondSum (hashBaseOf plugin) w path with
    | .error _ => w.emit (.logError .checksum)
    | .ok cksum =>
      if plugin.Status.ExpectedChecksum = none ∨ some cksum ≠ plugin.Status.ExpectedChecksum then
        let w := w.emit (.update id cksum)
        if env.update = .otherError then w.emit (.logError .update) else w
      else w

/-- The method `Controller.reconcile(ctx, id, wgDone)`: the world after the run.  The
deferred `wgDone()` only releases the wait group of `reconcileAll`. -/
def Controller.reconcile (c : Controller) (env : Env) (w : World) (id : resourceIdentifier) :
    World :=
  let (path, w) := c.getPath env.mkdirFails w id
  match env.get with
  | .otherError => w.emit (.logError .fetch)
  | .notFound =>
    let (found, err) := fileExists env.statFails w path
    if err ≠ none ∨ found = true then
      let (unlinkErr, w) := osRemove env.removeFails w path
      if unlinkErr ≠ none ∧ unlinkErr ≠ some .notExist then w.emit (.logError .unlink) else w
    else w
  | .found plugin =>
    let (found, err) := fileExists env.statFails w path
    let w := if err ≠ none then w.emit (.logError .stat) else w
    let found := if err ≠ none then false else found
    if found = true ∧ plugin.Status.ExpectedChecksum ≠ none then
      match crc32File env.firstSum (hashBaseOf plugin) w path with
      | .error _ => Controller.downloadAndReport env id plugin path (w.emit (.logError .checksum))
      | .ok cksum =>
        if some cksum = plugin.Status.ExpectedChecksum then w
        else Controller.downloadAndReport env id plugin path w
    else Controller.downloadAndReport env id plugin path w

/-! ## Reading the record of a run -/

/-- The events that belong to a download: the call of `downloadPlugin`, a write of the
destination, a request sent. -/
def Event.isDownload : Event → Bool
  | .downloadPlugin _ => true
  | .writeFile _ => true
  | .httpGet _ => true
  | .create _ => true
  | _ => false

/-- The events that write to the store. -/
def Event.isUpdate : Event → Bool
  | .update _ _ => true
  | _ => false

/-- The events that report an error. -/
def Event.isError : Event → Bool
  | .logError _ => true
  | _ => false

/-! ## Predicates on paths -/

/-- A path element that `path.Clean` keeps as it is. -/
def Plain (seg : GoString) : Prop :=
  seg ≠ [] ∧ seg ≠ [dot] ∧ seg ≠ dotdot ∧ slash ∉ seg

/-- The shape of the elements `path.Clean` keeps (last first): plain elements above a
run of `..`, which is empty for a rooted path. -/
def WellFormed (r : Bool) (T : List GoString) : Prop :=
  ∃ k real, T = real ++ List.replicate k dotdot ∧ (r = true → k = 0) ∧ ∀ s ∈ real, Plain s

/-- An identity whose namespace is a plain path element and whose name has no slash. -/
def PlainIdentity (id : resourceIdentifier) : Prop :=
  Plain id.nspace ∧ slash ∉ id.name

/-! ## Concrete inputs -/

/-- The mount path `/m`. -/
def exMount : GoString := [47, 109]

/-- A controller mounted at `/m`. -/
def exController : Controller := ⟨exMount⟩

/-- The identity with namespace `n` and name `p`. -/
def exId : resourceIdentifier := ⟨[110], [112]⟩

/-- The identity with namespace `n` and name `q`. -/
def exOther : resourceIdentifier := ⟨[110], [113]⟩

/-- The path `/m/n`, the namespace directory of `exId`. -/
def exDir : GoString := [47, 109, 47, 110]

/-- The path `/m/n/p.phar`, the artifact of `exId`. -/
def exPath : GoString := [47, 109, 47, 110, 47, 112, 46, 112, 104, 97, 114]

/-- A mount that holds nothing yet: the mount directory and no file. -/
def exFresh : World := ⟨fun _ => none, fun p => decide (p = exMount), []⟩

/-- A mount whose only file is `/m/n/p.phar`, holding the single byte `1`. -/
def exWorld : World :=
  ⟨fun p => if p = exPath then some [1] else none,
   fun p => decide (p = exMount) || decide (p = exDir), []⟩

/-- A mount with no file and an empty directory at `/m/n/p.phar`. -/
def exDirWorld : World :=
  ⟨fun _ => none,
   fun p => decide (p = exMount) || decide (p = exDir) || decide (p = exPath), []⟩

/-- A mount whose only file is `/m/n/p.phar`, holding 5000 bytes. -/
def exLarge : World :=
  ⟨fun p => if p = exPath then some (List.replicate 5000 7) else none,
   fun p => decide (p = exMount) || decide (p = exDir), []⟩

/-- A resource with inline data `[2]` whose stored checksum, 2768625435, is the CRC-32
of the single byte `1`. -/
def exInline : Plugin := ⟨[110], [112], ⟨⟨none, [2]⟩, .AutoCreate⟩, ⟨some 2768625435⟩⟩

/-- A resource with inline data `[2]` and no stored checksum. -/
def exInlineNew : Plugin := ⟨[110], [112], ⟨⟨none, [2]⟩, .AutoCreate⟩, ⟨none⟩⟩

/-- The URL `http://a/xs4ibwwl`. -/
def exUrlA : GoString :=
  [104, 116, 116, 112, 58, 47, 47, 97, 47, 120, 115, 52, 105, 98, 119, 119, 108]

/-- The URL `http://a/adwoqc8j`. -/
def exUrlB : GoString :=
  [104, 116, 116, 112, 58, 47, 47, 97, 47, 97, 100, 119, 111, 113, 99, 56, 106]

/-- A resource with an HTTP source and no inline data. -/
def exHttp : Plugin := ⟨[110], [112], ⟨⟨some ⟨exUrlA, 60⟩, []⟩, .AutoCreate⟩, ⟨none⟩⟩

/-- An environment in which nothing fails except the `os.Open` of the first checksum. -/
def exUnreadable : Env :=
  { Env.quiet (.found exInline) .transportError with firstSum := ⟨true, []⟩ }

/-- An environment in which the store answers NotFound and `os.Remove` fails, as it does
on a directory that is not empty. -/
def exRemoveFails : Env :=
  { Env.quiet .notFound .transportError with removeFails := true }

/-- The identity with namespace `a/b` and name `c`. -/
def exSlashA : resourceIdentifier := ⟨[97, 47, 98], [99]⟩

/-- The identity with namespace `a` and name `b/c`. -/
def exSlashB : resourceIdentifier := ⟨[97], [98, 47, 99]⟩

/-- The loop after one `notify` from the initial state. -/
def exNotified : LoopState :=
  ⟨LoopState.init.handler.notify exInline, LoopState.init.draining⟩

/-! # Properties -/

/-! ## `hash/crc32`: the table-driven update is the bit-serial CRC-32 -/

theorem xor_ff_ff (x : Nat) : (x ^^^ 0xffffffff) ^^^ 0xffffffff = x := by
  rw [Nat.xor_assoc, Nat.xor_self, Nat.xor_zero]

theorem simpleUpdate_append (crc : Nat) (tab : Nat → Nat) (a b : List Byte) :
    simpleUpdate (simpleUpdate crc tab a) tab b = simpleUpdate crc tab (a ++ b) := by
  simp only [simpleUpdate, xor_ff_ff, List.foldl_append]

theorem Write_Write (d : digest) (a b : List Byte) : (d.Write a).Write b = d.Write (a ++ b) := by
  simp only [digest.Write, simpleUpdate_append]

theorem Write_nil (d : digest) : d.Write [] = d := by
  cases d
  simp [digest.Write, simpleUpdate, xor_ff_ff]

theorem tableStep_IEEE (x : Nat) : tableStep IEEE x = crcBit x := by
  simp only [tableStep, crcBit, IEEE, Nat.and_one_is_mod, Nat.shiftRight_one]

theorem xor_swap_right (x y p : Nat) : (x ^^^ y) ^^^ p = (x ^^^ p) ^^^ y := by
  rw [Nat.xor_assoc, Nat.xor_comm y p, ← Nat.xor_assoc]

theorem xor_cancel_both (x y p : Nat) : (x ^^^ p) ^^^ (y ^^^ p) = x ^^^ y := by
  rw [Nat.xor_comm y p, ← Nat.xor_assoc, Nat.xor_assoc x p p, Nat.xor_self, Nat.xor_zero]

theorem crcBit_xor (a b : Nat) : crcBit (a ^^^ b) = crcBit a ^^^ crcBit b := by
  unfold crcBit
  rw [Nat.xor_div_two]
  have h : (a ^^^ b) % 2 = (a + b) % 2 := Nat.xor_mod_two_eq
  rcases Nat.mod_two_eq_zero_or_one a with ha | ha <;>
  rcases Nat.mod_two_eq_zero_or_one b with hb | hb
  · have h2 : (a ^^^ b) % 2 = 0 := by omega
    simp [h2, ha, hb]
  · have h2 : (a ^^^ b) % 2 = 1 := by omega
    simp [h2, ha, hb, Nat.xor_assoc]
  · have h2 : (a ^^^ b) % 2 = 1 := by omega
    simp only [h2, ha, hb, if_true]
    simpa using xor_swap_right (a / 2) (b / 2) 3988292384
  · have h2 : (a ^^^ b) % 2 = 0 := by omega
    simp only [h2, ha, hb, if_true]
    simpa using (xor_cancel_both (a / 2) (b / 2) 3988292384).symm

theorem crcBit_iter_xor (n : Nat) (a b : Nat) :
    crcBit^[n] (a ^^^ b) = crcBit^[n] a ^^^ crcBit^[n] b := by
  induction n generalizing a b with
  | zero => rfl
  | succ n ih => simp only [Function.iterate_succ, Function.comp, crcBit_xor, ih]

theorem crcBit_double (x : Nat) : crcBit (2 * x) = x := by
  unfold crcBit
  have h : (2 * x) % 2 = 0 := by omega
  simp [h]

theorem crcBit_iter_shift (n x : Nat) : crcBit^[n] (2 ^ n * x) = x := by
  induction n generalizing x with
  | zero => simp
  | succ n ih =>
    rw [Function.iterate_succ, Function.comp, pow_succ, mul_comm (2 ^ n) 2, mul_assoc,
      crcBit_double, ih]

theorem split_low_byte (x : Nat) : (x % 256) ^^^ (256 * (x / 256)) = x := by
  apply Nat.eq_of_testBit_eq
  intro i
  have e : (256 : Nat) = 2 ^ 8 := by norm_num
  rw [Nat.testBit_xor, e, Nat.testBit_mod_two_pow, Nat.testBit_mul_pow_two,
    ← Nat.shiftRight_eq_div_pow, Nat.testBit_shiftRight]
  by_cases h : i < 8
  · have h8 : ¬ 8 ≤ i := by omega
    simp [h, h8]
  · have h8 : 8 ≤ i := by omega
    have e2 : 8 + (i - 8) = i := by omega
    simp [h, h8, e2]

theorem updateByte_eq_crcByte (crc : Nat) (v : Byte) :
    updateByte (simpleMakeTable IEEE) crc v = crcByte crc v := by
  have ht : tableStep IEEE = crcBit := funext tableStep_IEEE
  have key : crc ^^^ v.val = ((crc % 256) ^^^ v.val) ^^^ (256 * (crc / 256)) := by
    rw [xor_swap_right, split_low_byte]
  have hs : crcBit^[8] (256 * (crc / 256)) = crc / 256 := crcBit_iter_shift 8 (crc / 256)
  unfold updateByte crcByte simpleMakeTable
  rw [ht, key, crcBit_iter_xor _ ((crc % 256) ^^^ v.val), hs, Nat.shiftRight_eq_div_pow]

theorem simpleUpdate_zero_eq (data : List Byte) :
    simpleUpdate 0 (simpleMakeTable IEEE) data = crc32IEEE data := by
  have hf : updateByte (simpleMakeTable IEEE) = crcByte := by
    funext c v; exact updateByte_eq_crcByte c v
  simp [simpleUpdate, crc32IEEE, hf]

theorem NewIEEE_Write_Sum32 (data : List Byte) : (NewIEEE.Write data).Sum32 = crc32IEEE data := by
  simp [NewIEEE, digest.Write, digest.Sum32, simpleUpdate_zero_eq]

theorem crc32IEEE_check_value : crc32IEEE [49, 50, 51, 52, 53, 54, 55, 56, 57] = 0xcbf43926 := by
  decide

/-! ## The CRC state is carried injectively through equal bytes -/

theorem crcBit_lt (x : Nat) (hx : x < 2 ^ 32) : crcBit x < 2 ^ 32 := by
  unfold crcBit
  have h2 : x / 2 < 2 ^ 32 := by omega
  split
  · exact Nat.xor_lt_two_pow h2 (by norm_num)
  · exact h2

theorem crcBit_testBit (x : Nat) (hx : x < 2 ^ 32) :
    (crcBit x).testBit 31 = decide (x % 2 = 1) := by
  unfold crcBit
  have h2 : x / 2 < 2 ^ 31 := by omega
  have hb : (x / 2).testBit 31 = false := Nat.testBit_lt_two_pow h2
  by_cases h : x % 2 = 1
  · simp only [h, if_true, Nat.testBit_xor, hb]
    decide
  · simp [h, hb]

theorem crcBit_inj (x y : Nat) (hx : x < 2 ^ 32) (hy : y < 2 ^ 32)
    (h : crcBit x = crcBit y) : x = y := by
  have hp : decide (x % 2 = 1) = decide (y % 2 = 1) := by
    rw [← crcBit_testBit x hx, ← crcBit_testBit y hy, h]
  have hp2 : (x % 2 = 1) ↔ (y % 2 = 1) := by simpa using hp
  unfold crcBit at h
  by_cases hx1 : x % 2 = 1
  · have hy1 := hp2.mp hx1
    simp only [hx1, hy1, if_true] at h
    have := Nat.xor_left_injective h
    omega
  · have hy1 : ¬ y % 2 = 1 := fun hh => hx1 (hp2.mpr hh)
    simp only [hx1, hy1, if_false] at h
    omega

theorem crcBit_iter_lt (n x : Nat) (hx : x < 2 ^ 32) : crcBit^[n] x < 2 ^ 32 := by
  induction n generalizing x with
  | zero => exact hx
  | succ n ih => rw [Function.iterate_succ, Function.comp]; exact ih _ (crcBit_lt x hx)

theorem crcBit_iter_inj (n x y : Nat) (hx : x < 2 ^ 32) (hy : y < 2 ^ 32)
    (h : crcBit^[n] x = crcBit^[n] y) : x = y := by
  induction n generalizing x y with
  | zero => exact h
  | succ n ih =>
    rw [Function.iterate_succ, Function.comp, Function.comp] at h
    exact crcBit_inj x y hx hy (ih _ _ (crcBit_lt x hx) (crcBit_lt y hy) h)

theorem byte_lt (b : Byte) : b.val < 2 ^ 32 := by
  have := b.isLt
  omega

theorem crcByte_lt (x : Nat) (b : Byte) (hx : x < 2 ^ 32) : crcByte x b < 2 ^ 32 :=
  crcBit_iter_lt 8 _ (Nat.xor_lt_two_pow hx (byte_lt b))

theorem crcByte_inj (x y : Nat) (b : Byte) (hx : x < 2 ^ 32) (hy : y < 2 ^ 32)
    (h : crcByte x b = crcByte y b) : x = y := by
  have := crcBit_iter_inj 8 _ _ (Nat.xor_lt_two_pow hx (byte_lt b))
    (Nat.xor_lt_two_pow hy (byte_lt b)) h
  exact Nat.xor_left_injective this

theorem foldl_crcByte_lt (data : List Byte) (x : Nat) (hx : x < 2 ^ 32) :
    data.foldl crcByte x < 2 ^ 32 := by
  induction data generalizing x with
  | nil => exact hx
  | cons b t ih => exact ih _ (crcByte_lt x b hx)

theorem foldl_crcByte_inj (data : List Byte) (x y : Nat) (hx : x < 2 ^ 32) (hy : y < 2 ^ 32)
    (h : data.foldl crcByte x = data.foldl crcByte y) : x = y := by
  induction data generalizing x y with
  | nil => exact h
  | cons b t ih =>
    exact crcByte_inj x y b hx hy (ih _ _ (crcByte_lt x b hx) (crcByte_lt y b hy) h)

theorem crc32IEEE_append_eq_iff (u v tail : List Byte) :
    crc32IEEE (u ++ tail) = crc32IEEE (v ++ tail) ↔ crc32IEEE u = crc32IEEE v := by
  unfold crc32IEEE
  rw [List.foldl_append, List.foldl_append]
  constructor
  · intro h
    have h1 := Nat.xor_left_injective h
    have h2 := foldl_crcByte_inj tail _ _ (foldl_crcByte_lt u _ (by norm_num))
      (foldl_crcByte_lt v _ (by norm_num)) h1
    rw [h2]
  · intro h
    have h1 := Nat.xor_left_injective h
    rw [h1]

/-! ## `crc32File`: the read loop -/

theorem readLen_pos (k n : Nat) (hn : 0 < n) : 0 < readLen k n := by
  unfold readLen
  omega

theorem readLen_le (k n : Nat) : readLen k n ≤ n := by
  unfold readLen
  omega

theorem readLoop_ok (fuel : Nat) (plan : List (Option Nat)) (rest : List Byte) (hash h : digest)
    (hfuel : rest.length < fuel) (hok : readLoop fuel plan rest hash = .ok h) :
    h = hash.Write rest := by
  induction fuel generalizing plan rest hash with
  | zero => omega
  | succ fuel ih =>
    unfold readLoop at hok
    cases hp : nextRead plan with
    | none => simp [hp] at hok
    | some k =>
      simp only [hp] at hok
      by_cases hr : rest = []
      · subst hr
        simp at hok
        rw [Write_nil]
        exact hok.symm
      · simp only [hr, if_false] at hok
        have hpos : 0 < rest.length := List.length_pos.mpr hr
        have hn := readLen_pos k rest.length hpos
        have := ih plan.tail (rest.drop (readLen k rest.length))
          (hash.Write (rest.take (readLen k rest.length))) (by simp; omega) hok
        rw [this, Write_Write, List.take_append_drop]

theorem readLoop_complete (fuel : Nat) (plan : List (Option Nat)) (rest : List Byte)
    (hash : digest) (hfuel : rest.length < fuel) (hplan : none ∉ plan) :
    readLoop fuel plan rest hash = .ok (hash.Write rest) := by
  induction fuel generalizing plan rest hash with
  | zero => omega
  | succ fuel ih =>
    unfold readLoop
    cases hp : nextRead plan with
    | none =>
      exfalso
      cases plan with
      | nil => simp [nextRead] at hp
      | cons a t =>
        simp only [nextRead] at hp
        subst hp
        simp at hplan
    | some k =>
      simp only
      by_cases hr : rest = []
      · subst hr
        simp [Write_nil]
      · simp only [hr, if_false]
        have hpos : 0 < rest.length := List.length_pos.mpr hr
        have hn := readLen_pos k rest.length hpos
        have htail : none ∉ plan.tail := fun hmem => hplan (List.mem_of_mem_tail hmem)
        rw [ih plan.tail _ _ (by simp; omega) htail, Write_Write, List.take_append_drop]

theorem crc32File_ok (plan : ReadPlan) (id : GoString) (w : World) (path : GoString) (c : Nat)
    (h : crc32File plan id w path = .ok c) :
    ∃ content, w.files path = some content ∧ c = crc32IEEE (id ++ content) := by
  unfold crc32File at h
  by_cases ho : plan.openFails = true
  · simp [ho] at h
  · simp only [ho] at h
    cases hf : w.files path with
    | none => simp [hf] at h
    | some content =>
      simp only [hf] at h
      refine ⟨content, rfl, ?_⟩
      cases hl : readLoop (content.length + 1) plan.reads content (NewIEEE.Write id) with
      | error e => simp [hl] at h
      | ok d =>
        simp only [hl] at h
        have := readLoop_ok _ _ _ _ _ (Nat.lt_succ_self _) hl
        rw [this, Write_Write, NewIEEE_Write_Sum32] at h
        injection h with h
        exact h.symm

theorem crc32File_complete (plan : ReadPlan) (id : GoString) (w : World) (path : GoString)
    (content : List Byte) (ho : plan.openFails = false) (hr : none ∉ plan.reads)
    (hf : w.files path = some content) :
    crc32File plan id w path = .ok (crc32IEEE (id ++ content)) := by
  unfold crc32File
  simp only [ho, hf]
  rw [readLoop_complete _ _ _ _ (Nat.lt_succ_self _) hr, Write_Write]
  simp [NewIEEE_Write_Sum32]

/-! ## `getPath` and `downloadPlugin`: what they touch -/

theorem getPath_fst (c : Controller) (f : Bool) (w : World) (id : resourceIdentifier) :
    (c.getPath f w id).1 = Join (Join c.mountPath id.nspace) (id.name ++ pharSuffix) := by
  simp only [Controller.getPath]

theorem getPath_files (c : Controller) (f : Bool) (w : World) (id : resourceIdentifier) :
    (c.getPath f w id).2.files = w.files := by
  simp only [Controller.getPath, osMkdir, World.emit]
  split_ifs <;> rfl

theorem getPath_events (c : Controller) (f : Bool) (w : World) (id : resourceIdentifier) :
    ∃ added, (c.getPath f w id).2.events = w.events ++ added ∧
      (∀ e ∈ added, e = .logError .mkdir) ∧ (f = false → added = []) := by
  simp only [Controller.getPath, osMkdir, World.emit]
  split_ifs <;> simp_all

theorem getPath_dirs (c : Controller) (f : Bool) (w : World) (id : resourceIdentifier)
    (p : GoString) (hp : p ≠ Join c.mountPath id.nspace) :
    (c.getPath f w id).2.dirs p = w.dirs p := by
  simp only [Controller.getPath, osMkdir, World.emit]
  split_ifs <;> simp_all [Function.update]

theorem downloadPlugin_frame (env : Env) (src : PluginSource) (path : GoString) (w : World) :
    ∃ added, (downloadPlugin env src path w).2.events = w.events ++ added ∧
      (∀ e ∈ added, e.isUpdate = false ∧ e.isError = false) ∧
      (downloadPlugin env src path w).2.dirs = w.dirs ∧
      ∀ p, p ≠ path → (downloadPlugin env src path w).2.files p = w.files p := by
  unfold downloadPlugin
  by_cases hd : src.Data.length > 0
  · simp only [hd, if_true]
    cases hw : env.write <;>
      simp [writeTruncating, World.emit, Event.isUpdate, Event.isError, Function.update] <;>
      intro p hp hpp <;> exact absurd hpp hp
  · simp only [hd, if_false]
    cases hh : src.Http with
    | none => simp [World.emit, Event.isUpdate, Event.isError]
    | some http =>
      simp only
      by_cases hr : env.requestFails = true
      · simp [hr, World.emit, Event.isUpdate, Event.isError]
      · simp only [hr]
        cases hres : env.http with
        | transportError => simp [World.emit, Event.isUpdate, Event.isError]
        | response code body =>
          simp only
          by_cases hc : code < 200 ∨ code ≥ 300
          · simp [hc, World.emit, Event.isUpdate, Event.isError]
          · simp only [hc, if_false]
            cases hw : env.write <;>
              simp [writeTruncating, World.emit, Event.isUpdate, Event.isError, Function.update] <;>
              intro p hp hpp <;> exact absurd hpp hp

theorem downloadPlugin_result_indep (env : Env) (src : PluginSource) (path : GoString)
    (w₁ w₂ : World) :
    (downloadPlugin env src path w₁).1 = (downloadPlugin env src path w₂).1 := by
  unfold downloadPlugin
  by_cases hd : src.Data.length > 0
  · simp only [hd, if_true]
    cases hw : env.write <;> simp [writeTruncating]
  · simp only [hd, if_false]
    cases hh : src.Http with
    | none => simp
    | some http =>
      simp only
      by_cases hr : env.requestFails = true
      · simp [hr]
      · simp only [hr]
        cases hres : env.http with
        | transportError => simp
        | response code body =>
          simp only
          by_cases hc : code < 200 ∨ code ≥ 300
          · simp [hc]
          · simp only [hc, if_false]
            cases hw : env.write <;> simp [writeTruncating]

theorem downloadPlugin_http_failure (env : Env) (src : PluginSource) (path : GoString)
    (w : World) (http : PluginHttpSource) (hdata : src.Data = []) (hhttp : src.Http = some http)
    (hfail : env.http = .transportError ∨
      ∃ code body, env.http = .response code body ∧ (code < 200 ∨ 300 ≤ code)) :
    (downloadPlugin env src path w).1 ≠ none ∧
      (downloadPlugin env src path w).2.files = w.files := by
  unfold downloadPlugin
  simp only [hdata, hhttp, List.length_nil, gt_iff_lt, lt_self_iff_false, if_false]
  by_cases hr : env.requestFails = true
  · simp [hr, World.emit]
  · simp only [hr]
    rcases hfail with ht | ⟨code, body, hres, hc⟩
    · simp [ht, World.emit]
    · have hc2 : code < 200 ∨ code ≥ 300 := hc
      simp [hres, hc2, World.emit]

theorem downloadPlugin_inline (env : Env) (src : PluginSource) (path : GoString) (w : World)
    (hdata : src.Data ≠ []) (hwrite : env.write = .none) :
    (downloadPlugin env src path w).1 = none ∧
      (downloadPlugin env src path w).2.files path = some src.Data := by
  unfold downloadPlugin
  have hd : src.Data.length > 0 := List.length_pos.mpr hdata
  simp [hd, hwrite, writeTruncating, World.emit]

/-- What `downloadAndReport` adds to the record and leaves on disk. -/
theorem downloadAndReport_spec (env : Env) (id : resourceIdentifier) (plugin : Plugin)
    (path : GoString) (w : World) :
    (Controller.downloadAndReport env id plugin path w).files =
        (downloadPlugin env plugin.Spec.Source path w).2.files ∧
      (Controller.downloadAndReport env id plugin path w).dirs = w.dirs ∧
      ∃ added, (Controller.downloadAndReport env id plugin path w).events = w.events ++ added ∧
        ∀ id' cksum, Event.update id' cksum ∈ added →
          id' = id ∧ (downloadPlugin env plugin.Spec.Source path w).1 = none ∧
          crc32File env.secondSum (hashBaseOf plugin)
            (downloadPlugin env plugin.Spec.Source path w).2 path = .ok cksum ∧
          (plugin.Status.ExpectedChecksum = none ∨
            some cksum ≠ plugin.Status.ExpectedChecksum) := by
  obtain ⟨added, hev, hadd, hdirs, -⟩ := downloadPlugin_frame env plugin.Spec.Source path w
  have hnoup : ∀ id' cksum, Event.update id' cksum ∉ added := by
    intro id' cksum hmem
    have := (hadd _ hmem).1
    simp [Event.isUpdate] at this
  unfold Controller.downloadAndReport
  rcases hdl : downloadPlugin env plugin.Spec.Source path w with ⟨res, w₁⟩
  rw [hdl] at hev hdirs
  simp only at hev hdirs
  cases res with
  | some err =>
    refine ⟨rfl, hdirs, added ++ [.logError .download], by simp [World.emit, hev], ?_⟩
    intro id' cksum hmem
    simp at hmem
    exact absurd hmem (hnoup _ _)
  | none =>
    simp only
    cases hsum : crc32File env.secondSum (hashBaseOf plugin) w₁ path with
    | error e =>
      refine ⟨rfl, hdirs, added ++ [.logError .checksum], by simp [World.emit, hev], ?_⟩
      intro id' cksum hmem
      simp at hmem
      exact absurd hmem (hnoup _ _)
    | ok cksum =>
      simp only
      by_cases hnew : plugin.Status.ExpectedChecksum = none ∨
          some cksum ≠ plugin.Status.ExpectedChecksum
      · simp only [hnew, if_true]
        by_cases hup : env.update = .otherError
        · simp only [hup, if_true]
          refine ⟨rfl, hdirs, added ++ [.update id cksum, .logError .update],
            by simp [World.emit, hev], ?_⟩
          intro id' cksum' hmem
          simp at hmem
          rcases hmem with hmem | ⟨h1, h2⟩
          · exact absurd hmem (hnoup _ _)
          · subst h1 h2
            exact ⟨rfl, trivial, rfl, hnew⟩
        · simp only [hup, if_false]
          refine ⟨rfl, hdirs, added ++ [.update id cksum], by simp [World.emit, hev], ?_⟩
          intro id' cksum' hmem
          simp at hmem
          rcases hmem with hmem | ⟨h1, h2⟩
          · exact absurd hmem (hnoup _ _)
          · subst h1 h2
            exact ⟨rfl, trivial, rfl, hnew⟩
      · simp only [hnew, if_false]
        refine ⟨trivial, hdirs, added, hev, ?_⟩
        intro id' cksum' hmem
        exact absurd hmem (hnoup _ _)

/-! ## `reconcile`: its branches -/

theorem fileExists_eq (f : Bool) (w : World) (path : GoString) :
    fileExists f w path =
      if f = true then (false, some .other)
      else if (w.files path).isSome = true ∨ w.dirs path = true then (true, none)
      else (false, none) := by
  unfold fileExists osStat
  by_cases hf : f = true
  · simp [hf]
  · by_cases hs : (w.files path).isSome = true ∨ w.dirs path = true <;> simp [hf, hs]

/-- The two ways `reconcile` goes on a resource that is found: the no-op, or the
download from a world that differs from the one after `getPath` by logged errors only. -/
theorem reconcile_found_cases (c : Controller) (env : Env) (w : World) (id : resourceIdentifier)
    (plugin : Plugin) (hget : env.get = .found plugin) :
    (env.statFails = false ∧
      (∃ cksum, crc32File env.firstSum (hashBaseOf plugin) (c.getPath env.mkdirFails w id).2
          (c.getPath env.mkdirFails w id).1 = .ok cksum ∧
        plugin.Status.ExpectedChecksum = some cksum) ∧
      c.reconcile env w id = (c.getPath env.mkdirFails w id).2) ∨
    (∃ w₂ : World, w₂.files = w.files ∧ w₂.dirs = (c.getPath env.mkdirFails w id).2.dirs ∧
      (∃ pre, w₂.events = (c.getPath env.mkdirFails w id).2.events ++ pre ∧
        ∀ e ∈ pre, e.isDownload = false ∧ e.isUpdate = false) ∧
      c.reconcile env w id =
        Controller.downloadAndReport env id plugin (c.getPath env.mkdirFails w id).1 w₂) := by
  have hfiles := getPath_files c env.mkdirFails w id
  unfold Controller.reconcile
  rcases hgp : c.getPath env.mkdirFails w id with ⟨path, w₁⟩
  rw [hgp] at hfiles
  simp only [hget, fileExists_eq] at hfiles ⊢
  by_cases hstat : env.statFails = true
  · right
    refine ⟨w₁.emit (.logError .stat), hfiles, rfl, ⟨[.logError .stat], rfl, ?_⟩, ?_⟩
    · simp [Event.isDownload, Event.isUpdate]
    · simp [hstat]
  · have hstat' : env.statFails = false := by simpa using hstat
    by_cases hfile : (w₁.files path).isSome = true ∨ w₁.dirs path = true
    · by_cases hexp : plugin.Status.ExpectedChecksum = none
      · right
        refine ⟨w₁, hfiles, rfl, ⟨[], by simp, by simp⟩, ?_⟩
        simp [hstat', hfile, hexp]
      · cases hsum : crc32File env.firstSum (hashBaseOf plugin) w₁ path with
        | error e =>
          right
          refine ⟨w₁.emit (.logError .checksum), hfiles, rfl, ⟨[.logError .checksum], rfl, ?_⟩, ?_⟩
          · simp [Event.isDownload, Event.isUpdate]
          · simp [hstat', hfile, hexp, hsum]
        | ok cksum =>
          by_cases heq : some cksum = plugin.Status.ExpectedChecksum
          · left
            refine ⟨hstat', ⟨cksum, rfl, heq.symm⟩, ?_⟩
            simp [hstat', hfile, hexp, hsum, heq]
          · right
            refine ⟨w₁, hfiles, rfl, ⟨[], by simp, by simp⟩, ?_⟩
            simp [hstat', hfile, hexp, hsum, heq]
    · right
      refine ⟨w₁, hfiles, rfl, ⟨[], by simp, by simp⟩, ?_⟩
      simp [hstat', hfile]

/-- A directory at the path counts as existing, as for `os.Stat`. -/
theorem fileExists_on_directory : fileExists false exDirWorld exPath = (true, none) := by
  decide

/-- With NotFound and a directory at the resolved path, `os.Remove` is called: the
directory is removed when the call succeeds (it is empty), and stays, with the error
logged, when the call fails (it is not empty). -/
theorem reconcile_not_found_on_directory :
    (exController.reconcile (Env.quiet .notFound .transportError) exDirWorld exId).events =
        [.remove exPath] ∧
      (exController.reconcile (Env.quiet .notFound .transportError) exDirWorld exId).dirs
        exPath = false ∧
      (exController.reconcile exRemoveFails exDirWorld exId).events =
        [.remove exPath, .logError .unlink] ∧
      (exController.reconcile exRemoveFails exDirWorld exId).dirs exPath = true := by
  decide

theorem isUpdate_false_of_not_mem (added : List Event)
    (h : ∀ id cksum, Event.update id cksum ∉ added) : ∀ e ∈ added, e.isUpdate = false := by
  intro e he
  cases e with
  | update id cksum => exact absurd he (h id cksum)
  | _ => rfl

/-- What `reconcile` does when the store answers NotFound, in terms of the world after
`getPath`. -/
theorem reconcile_notFound_spec (c : Controller) (env : Env) (w : World)
    (id : resourceIdentifier) (hget : env.get = .notFound) :
    (∃ added, (c.reconcile env w id).events = w.events ++ added ∧
      (∀ e ∈ added, e.isDownload = false ∧ e.isUpdate = false) ∧
      (w.files (c.getPath env.mkdirFails w id).1 = none →
        (c.getPath env.mkdirFails w id).2.dirs (c.getPath env.mkdirFails w id).1 = false →
        env.mkdirFails = false →
        (env.statFails = false ∨ env.removeFails = false) → ∀ e ∈ added, e.isError = false)) ∧
    (env.removeFails = false →
      (c.reconcile env w id).files (c.getPath env.mkdirFails w id).1 = none) ∧
    (env.removeFails = false → w.files (c.getPath env.mkdirFails w id).1 = none →
      (c.reconcile env w id).dirs (c.getPath env.mkdirFails w id).1 = false) ∧
    (w.files (c.getPath env.mkdirFails w id).1 = none → (c.reconcile env w id).files = w.files) ∧
    (∀ p, p ≠ (c.getPath env.mkdirFails w id).1 → (c.reconcile env w id).files p = w.files p) ∧
    (∀ p, p ≠ (c.getPath env.mkdirFails w id).1 →
      (c.reconcile env w id).dirs p = (c.getPath env.mkdirFails w id).2.dirs p) ∧
    ((c.reconcile env w id).dirs (c.getPath env.mkdirFails w id).1 = true →
      (c.getPath env.mkdirFails w id).2.dirs (c.getPath env.mkdirFails w id).1 = true) := by
  have hfiles := getPath_files c env.mkdirFails w id
  obtain ⟨mk, hev, hmk, hmk0⟩ := getPath_events c env.mkdirFails w id
  have hmkp : ∀ e ∈ mk, e.isDownload = false ∧ e.isUpdate = false := by
    intro e he; rw [hmk e he]; exact ⟨rfl, rfl⟩
  unfold Controller.reconcile
  rcases hgp : c.getPath env.mkdirFails w id with ⟨path, w₁⟩
  rw [hgp] at hfiles hev
  simp only at hfiles hev
  simp only [hget, fileExists_eq]
  by_cases hstat : env.statFails = true <;> by_cases hrem : env.removeFails = true <;>
    cases hfile : w.files path <;> cases hdir : w₁.dirs path <;>
    simp_all [osRemove, World.emit, Event.isDownload, Event.isUpdate, Event.isError,
      Function.update]
  all_goals
    intro e he
    rcases he with he | he | he <;>
      first
      | (rw [hmk e he]; exact ⟨rfl, rfl⟩)
      | (subst he; exact ⟨rfl, rfl⟩)
      | exact ⟨rfl, rfl⟩

/-! ## The coalescer -/

theorem notifyAll_set (h : pluginEventHandler) (objs : List Plugin) :
    (notifyAll h objs).set = h.set ∪ (objs.map newResourceIdentifier).toFinset := by
  induction objs generalizing h with
  | nil => simp [notifyAll]
  | cons o t ih =>
    have := ih (h.notify o)
    simp only [notifyAll, List.foldl_cons] at this ⊢
    rw [this]
    ext x
    simp [pluginEventHandler.notify]

theorem clear_fst (h : pluginEventHandler) : h.clear.1 = h.set := by
  unfold pluginEventHandler.clear
  by_cases hc : h.set.card = 0
  · simp [hc, Finset.card_eq_zero.mp hc]
  · simp [hc]

theorem clear_snd_set (h : pluginEventHandler) : h.clear.2.set = ∅ := by
  unfold pluginEventHandler.clear
  by_cases hc : h.set.card = 0
  · simp [hc, Finset.card_eq_zero.mp hc]
  · simp [hc]

theorem clear_snd_notifier (h : pluginEventHandler) :
    h.clear.2.updateNotifier = h.updateNotifier := by
  unfold pluginEventHandler.clear
  by_cases hc : h.set.card = 0 <;> simp [hc]

theorem notify_notifier (h : pluginEventHandler) (obj : Plugin) (hle : h.updateNotifier ≤ 1) :
    (h.notify obj).updateNotifier = 1 := by
  simp only [pluginEventHandler.notify, notifierCap]
  split_ifs <;> omega

theorem loop_invariant (s : LoopState) (hs : Reachable s) :
    s.handler.updateNotifier ≤ notifierCap ∧
      (s.draining = false → s.handler.set.Nonempty → s.handler.updateNotifier = 1) := by
  induction hs with
  | init => simp [LoopState.init, newHandler]
  | @step s t a _ hstep ih =>
    cases hstep with
    | notify obj =>
      have := notify_notifier s.handler obj ih.1
      simp only [notifierCap] at ih ⊢
      exact ⟨by omega, fun _ _ => this⟩
    | receive hw hn =>
      simp only [notifierCap] at ih ⊢
      refine ⟨by simp; omega, ?_⟩
      intro h
      simp at h
    | clear hd =>
      refine ⟨by rw [clear_snd_notifier]; exact ih.1, ?_⟩
      intro _ hne
      rw [clear_snd_set] at hne
      simp at hne

/-! ## `path.Clean` and `path.Join` on plain elements -/

/-- The model of `path.Clean` on rows of the table in the tests of the Go library:
`abc//def//ghi` gives `abc/def/ghi`,
`abc/def/../ghi/../jkl` gives `abc/jkl`,
`/abc/def/../../..` gives `/`,
`abc/def/../../..` gives `..`,
`(empty)` gives `.`,
`abc/./../def` gives `def`,
`../../abc/` gives `../../abc`,
`/../abc` gives `/abc`. -/
theorem Clean_examples :
    Clean [97, 98, 99, 47, 47, 100, 101, 102, 47, 47, 103, 104, 105] = [97, 98, 99, 47, 100, 101, 102, 47, 103, 104, 105] ∧
    Clean [97, 98, 99, 47, 100, 101, 102, 47, 46, 46, 47, 103, 104, 105, 47, 46, 46, 47, 106, 107, 108] = [97, 98, 99, 47, 106, 107, 108] ∧
    Clean [47, 97, 98, 99, 47, 100, 101, 102, 47, 46, 46, 47, 46, 46, 47, 46, 46] = [47] ∧
    Clean [97, 98, 99, 47, 100, 101, 102, 47, 46, 46, 47, 46, 46, 47, 46, 46] = [46, 46] ∧
    Clean [] = [46] ∧
    Clean [97, 98, 99, 47, 46, 47, 46, 46, 47, 100, 101, 102] = [100, 101, 102] ∧
    Clean [46, 46, 47, 46, 46, 47, 97, 98, 99, 47] = [46, 46, 47, 46, 46, 47, 97, 98, 99] ∧
    Clean [47, 46, 46, 47, 97, 98, 99] = [47, 97, 98, 99] := by
  decide

theorem splitOn_no_sep (a : GoString) : ∀ l ∈ a.splitOn slash, slash ∉ l := by
  induction a with
  | nil => simp
  | cons c t ih =>
    intro l hl
    simp only [List.splitOn, List.splitOnP_cons] at hl ih
    by_cases hc : (c == slash) = true
    · simp only [hc, if_true, List.mem_cons] at hl
      rcases hl with rfl | hl
      · simp
      · exact ih l hl
    · simp only [hc] at hl
      cases hs : List.splitOnP (fun x => x == slash) t with
      | nil => exact absurd hs (List.splitOnP_ne_nil _ _)
      | cons hd tl =>
        rw [hs] at hl ih
        have e : List.modifyHead (List.cons c) (hd :: tl) = (c :: hd) :: tl := rfl
        rw [e] at hl
        rcases List.mem_cons.mp hl with h | h
        · subst h
          have := ih hd (by simp)
          intro hmem
          rcases List.mem_cons.mp hmem with h | h
          · exact hc (by simp [h])
          · exact this h
        · exact ih l (List.mem_cons_of_mem _ h)

theorem intercalate_append_single (l : List GoString) (seg : GoString) (hl : l ≠ []) :
    [slash].intercalate (l ++ [seg]) = [slash].intercalate l ++ [slash] ++ seg := by
  induction l with
  | nil => contradiction
  | cons a t ih =>
    cases t with
    | nil => simp [List.intercalate, List.intersperse, List.flatten]
    | cons b t' =>
      have := ih (by simp)
      simp only [List.intercalate, List.cons_append, List.intersperse_cons_cons, List.flatten,
        List.append_assoc] at this ⊢
      have e : t'.append [seg] = t' ++ [seg] := rfl
      rw [e, this]

theorem splitOn_append_seg (a seg : GoString) (hseg : slash ∉ seg) :
    (a ++ [slash] ++ seg).splitOn slash = a.splitOn slash ++ [seg] := by
  have hne : a.splitOn slash ≠ [] := List.splitOnP_ne_nil _ _
  have h1 : a ++ [slash] ++ seg = [slash].intercalate (a.splitOn slash ++ [seg]) := by
    rw [intercalate_append_single _ _ hne, List.intercalate_splitOn]
  rw [h1]
  apply List.splitOn_intercalate
  · intro l hl
    simp only [List.mem_append, List.mem_singleton] at hl
    rcases hl with hl | rfl
    · exact splitOn_no_sep a l hl
    · exact hseg
  · simp

theorem cleanStep_plain (r : Bool) (stack : List GoString) (seg : GoString) (h : Plain seg) :
    cleanStep r stack seg = seg :: stack := by
  obtain ⟨h1, h2, h3, -⟩ := h
  simp [cleanStep, h1, h2, h3]

theorem cleanStack_append_seg (r : Bool) (a seg : GoString) (h : Plain seg) :
    cleanStack r (a ++ [slash] ++ seg) = seg :: cleanStack r a := by
  unfold cleanStack
  rw [splitOn_append_seg a seg h.2.2.2, List.foldl_append]
  simp [cleanStep_plain _ _ _ h]

theorem dotdot_ne_nil : dotdot ≠ [] := by decide

theorem dotdot_ne_dot : dotdot ≠ [dot] := by decide

theorem slash_not_mem_dotdot : slash ∉ dotdot := by decide

theorem wellFormed_nil (r : Bool) : WellFormed r [] :=
  ⟨0, [], rfl, fun _ => rfl, by simp⟩

theorem wellFormed_push (r : Bool) (T : List GoString) (seg : GoString)
    (hT : WellFormed r T) (hseg : Plain seg) : WellFormed r (seg :: T) := by
  obtain ⟨k, real, rfl, hk, hreal⟩ := hT
  refine ⟨k, seg :: real, rfl, hk, ?_⟩
  intro s hs
  rcases List.mem_cons.mp hs with h | h
  · rw [h]; exact hseg
  · exact hreal s h

theorem wellFormed_step (r : Bool) (T : List GoString) (seg : GoString)
    (hT : WellFormed r T) (hseg : slash ∉ seg) : WellFormed r (cleanStep r T seg) := by
  unfold cleanStep
  by_cases h1 : seg = [] ∨ seg = [dot]
  · simp only [h1, if_true]; exact hT
  · simp only [h1, if_false]
    by_cases h2 : seg = dotdot
    · simp only [h2, if_true]
      obtain ⟨k, real, rfl, hk, hreal⟩ := hT
      cases real with
      | nil =>
        cases k with
        | zero =>
          simp only [List.replicate, List.append_nil]
          cases r with
          | true => exact wellFormed_nil true
          | false => exact ⟨1, [], rfl, by simp, by simp⟩
        | succ k =>
          simp only [List.replicate, List.nil_append, if_true]
          cases r with
          | true => simp at hk
          | false => exact ⟨k + 2, [], rfl, by simp, by simp⟩
      | cons top rest =>
        have htop : top ≠ dotdot := (hreal top (List.mem_cons_self _ _)).2.2.1
        simp only [List.cons_append, htop, if_false]
        exact ⟨k, rest, rfl, hk, fun s hs => hreal s (List.mem_cons_of_mem _ hs)⟩
    · simp only [h2, if_false]
      push_neg at h1
      exact wellFormed_push r T seg hT ⟨h1.1, h1.2, h2, hseg⟩

theorem wellFormed_foldl (r : Bool) (segs : List GoString) (T : List GoString)
    (hT : WellFormed r T) (hsegs : ∀ s ∈ segs, slash ∉ s) :
    WellFormed r (segs.foldl (cleanStep r) T) := by
  induction segs generalizing T with
  | nil => exact hT
  | cons a t ih =>
    simp only [List.foldl_cons]
    exact ih _ (wellFormed_step r T a hT (hsegs a (List.mem_cons_self _ _)))
      (fun s hs => hsegs s (List.mem_cons_of_mem _ hs))

theorem wellFormed_cleanStack (r : Bool) (a : GoString) : WellFormed r (cleanStack r a) :=
  wellFormed_foldl r _ [] (wellFormed_nil r) (splitOn_no_sep a)

theorem wellFormed_elem (r : Bool) (T : List GoString) (hT : WellFormed r T) :
    ∀ s ∈ T, s ≠ [] ∧ slash ∉ s := by
  obtain ⟨k, real, rfl, -, hreal⟩ := hT
  intro s hs
  rcases List.mem_append.mp hs with h | h
  · exact ⟨(hreal s h).1, (hreal s h).2.2.2⟩
  · rw [List.eq_of_mem_replicate h]
    exact ⟨dotdot_ne_nil, slash_not_mem_dotdot⟩

theorem foldl_plain (r : Bool) (l acc : List GoString) (hl : ∀ s ∈ l, Plain s) :
    l.foldl (cleanStep r) acc = l.reverse ++ acc := by
  induction l generalizing acc with
  | nil => rfl
  | cons a t ih =>
    simp only [List.foldl_cons, cleanStep_plain r acc a (hl a (List.mem_cons_self _ _))]
    rw [ih _ (fun s hs => hl s (List.mem_cons_of_mem _ hs))]
    simp

theorem foldl_dotdots (k j : Nat) :
    (List.replicate k dotdot).foldl (cleanStep false) (List.replicate j dotdot) =
      List.replicate (j + k) dotdot := by
  induction k generalizing j with
  | zero => rfl
  | succ k ih =>
    have hstep : cleanStep false (List.replicate j dotdot) dotdot = List.replicate (j + 1) dotdot := by
      cases j with
      | zero => simp [cleanStep, dotdot_ne_nil, dotdot_ne_dot]
      | succ j => simp [cleanStep, dotdot_ne_nil, dotdot_ne_dot, List.replicate]
    rw [List.replicate_succ, List.foldl_cons, hstep, ih]
    congr 1
    omega

theorem foldl_wellFormed (r : Bool) (T : List GoString) (hT : WellFormed r T) :
    T.reverse.foldl (cleanStep r) [] = T := by
  obtain ⟨k, real, rfl, hk, hreal⟩ := hT
  rw [List.reverse_append, List.reverse_replicate, List.foldl_append]
  have hd : (List.replicate k dotdot).foldl (cleanStep r) [] = List.replicate k dotdot := by
    cases r with
    | true => rw [hk rfl]; rfl
    | false => simpa using foldl_dotdots k 0
  rw [hd, foldl_plain r _ _ (fun s hs => hreal s (List.mem_reverse.mp hs))]
  simp

theorem isRooted_append (a b : GoString) (ha : a ≠ []) : isRooted (a ++ b) = isRooted a := by
  cases a with
  | nil => contradiction
  | cons c t => rfl

theorem isRooted_of_no_slash (a : GoString) (h : slash ∉ a) : isRooted a = false := by
  cases a with
  | nil => rfl
  | cons c t =>
    simp only [isRooted, decide_eq_false_iff_not]
    intro hc
    exact h (by simp [hc])

theorem intercalate_cons_head (a : GoString) (t : List GoString) :
    ∃ rest, [slash].intercalate (a :: t) = a ++ rest := by
  cases t with
  | nil => exact ⟨[], by simp [List.intercalate, List.intersperse, List.flatten]⟩
  | cons b t' =>
    exact ⟨[slash] ++ [slash].intercalate (b :: t'),
      by simp only [List.intercalate, List.intersperse_cons_cons, List.flatten]⟩

theorem render_ne_nil (r : Bool) (T : List GoString) (seg : GoString) (hseg : seg ≠ []) :
    render r (seg :: T) ≠ [] := by
  unfold render
  intro h
  have h2 := (List.append_eq_nil.mp h).2
  rw [List.reverse_cons] at h2
  by_cases hT : T.reverse = []
  · rw [hT] at h2
    simp [List.intercalate, List.intersperse, List.flatten] at h2
    exact hseg h2
  · rw [intercalate_append_single _ _ hT] at h2
    simp at h2

theorem isRooted_render (r : Bool) (T : List GoString) (hT : WellFormed r T) (hne : T ≠ []) :
    isRooted (render r T) = r := by
  unfold render
  cases r with
  | true => rfl
  | false =>
    simp only [Bool.false_eq_true, if_false, List.nil_append]
    have hrev : T.reverse ≠ [] := by simpa using hne
    cases hl : T.reverse with
    | nil => exact absurd hl hrev
    | cons a t =>
      have ha : a ∈ T := List.mem_reverse.mp (by rw [hl]; exact List.mem_cons_self _ _)
      obtain ⟨hane, hasl⟩ := wellFormed_elem false T hT a ha
      obtain ⟨rest, hrest⟩ := intercalate_cons_head a t
      rw [hrest, isRooted_append _ _ hane]
      exact isRooted_of_no_slash a hasl

theorem cleanStack_render (r : Bool) (T : List GoString) (hT : WellFormed r T) (hne : T ≠ []) :
    cleanStack r (render r T) = T := by
  have hrev : T.reverse ≠ [] := by simpa using hne
  have hel : ∀ l ∈ T.reverse, slash ∉ l :=
    fun l hl => (wellFormed_elem r T hT l (List.mem_reverse.mp hl)).2
  have hsplit : ([slash].intercalate T.reverse).splitOn slash = T.reverse :=
    List.splitOn_intercalate _ slash hel hrev
  unfold cleanStack render
  cases r with
  | true =>
    have : ([slash] ++ [slash].intercalate T.reverse).splitOn slash = [] :: T.reverse := by
      have h := List.splitOnP_first (fun x => x == slash) [] (by simp) slash (by simp)
        ([slash].intercalate T.reverse)
      simp only [List.nil_append] at h
      have h2 : ([slash] ++ [slash].intercalate T.reverse).splitOn slash =
          [] :: ([slash].intercalate T.reverse).splitOn slash := h
      rw [h2, hsplit]
    simp only [if_true, this, List.foldl_cons]
    have e : cleanStep true [] [] = [] := by simp [cleanStep]
    rw [e]
    exact foldl_wellFormed true T hT
  | false =>
    simp only [Bool.false_eq_true, if_false, List.nil_append, hsplit]
    exact foldl_wellFormed false T hT

theorem Clean_render_append (r : Bool) (T : List GoString) (seg : GoString)
    (hT : WellFormed r T) (hne : T ≠ []) (hseg : Plain seg) :
    Clean (render r T ++ [slash] ++ seg) = render r (seg :: T) := by
  have hrne : render r T ≠ [] := by
    cases T with
    | nil => contradiction
    | cons a t => exact render_ne_nil r t a (wellFormed_elem r _ hT a (List.mem_cons_self _ _)).1
  have hroot : isRooted (render r T ++ [slash] ++ seg) = r := by
    rw [List.append_assoc, isRooted_append _ _ hrne, isRooted_render r T hT hne]
  unfold Clean
  have hp : render r T ++ [slash] ++ seg ≠ [] := by simp
  simp only [hp, if_false, hroot, cleanStack_append_seg r _ seg hseg, cleanStack_render r T hT hne,
    render_ne_nil r T seg hseg.1]

theorem Join_plain (m seg : GoString) (hseg : Plain seg) :
    Join m seg = render (isRooted m) (seg :: cleanStack (isRooted m) m) := by
  unfold Join
  have h1 : ¬ (m = [] ∧ seg = []) := fun h => hseg.1 h.2
  simp only [h1, if_false, hseg.1]
  by_cases hm : m = []
  · subst hm
    have hs : seg.splitOn slash = [seg] :=
      List.splitOnP_eq_single _ _ (fun x hx hc => hseg.2.2.2 (by rw [← eq_of_beq hc]; exact hx))
    have hr : isRooted seg = false := isRooted_of_no_slash seg hseg.2.2.2
    have hc : cleanStack false seg = [seg] := by
      unfold cleanStack
      rw [hs]
      simp [cleanStep_plain _ _ _ hseg]
    have hn : cleanStack false ([] : GoString) = [] := by
      simp [cleanStack, cleanStep]
    have hr0 : isRooted ([] : GoString) = false := rfl
    have hone : render false [seg] = seg := by
      simp [render, List.intercalate, List.intersperse, List.flatten]
    rw [hr0, hn, hone]
    simp only [if_true, Clean, hseg.1, if_false, hr, hc, hone]
    simp
  · simp only [hm, if_false]
    unfold Clean
    have hp : m ++ [slash] ++ seg ≠ [] := by simp
    have hroot : isRooted (m ++ [slash] ++ seg) = isRooted m := by
      rw [List.append_assoc, isRooted_append _ _ hm]
    simp only [hp, if_false, hroot, cleanStack_append_seg _ m seg hseg,
      render_ne_nil _ _ seg hseg.1]
    simp

theorem pharSuffix_plain (name : GoString) (h : slash ∉ name) : Plain (name ++ pharSuffix) := by
  have hlen : (name ++ pharSuffix).length = name.length + 5 := by simp [pharSuffix]
  refine ⟨?_, ?_, ?_, ?_⟩
  · intro he; rw [he] at hlen; simp at hlen
  · intro he; rw [he] at hlen; simp at hlen
  · intro he; rw [he] at hlen; simp [dotdot] at hlen
  · intro hmem
    rcases List.mem_append.mp hmem with h1 | h1
    · exact h h1
    · revert h1; decide

/-- The path of an identity whose namespace is a plain element and whose name has no
slash: the elements kept of the mount path, the namespace, the file name. -/
theorem getPath_plain (c : Controller) (f : Bool) (w : World) (id : resourceIdentifier)
    (hns : Plain id.nspace) (hname : slash ∉ id.name) :
    (c.getPath f w id).1 =
      render (isRooted c.mountPath)
        ((id.name ++ pharSuffix) :: id.nspace :: cleanStack (isRooted c.mountPath) c.mountPath) := by
  have hp := pharSuffix_plain id.name hname
  have hwf : WellFormed (isRooted c.mountPath)
      (id.nspace :: cleanStack (isRooted c.mountPath) c.mountPath) :=
    wellFormed_push _ _ _ (wellFormed_cleanStack _ _) hns
  have hj : (c.getPath f w id).1 = Join (Join c.mountPath id.nspace) (id.name ++ pharSuffix) := by
    simp only [Controller.getPath]
  rw [hj, Join_plain c.mountPath id.nspace hns]
  have hne := render_ne_nil (isRooted c.mountPath)
    (cleanStack (isRooted c.mountPath) c.mountPath) id.nspace hns.1
  unfold Join
  simp only [hne, hp.1, false_and, if_false]
  exact Clean_render_append _ _ _ hwf (by simp) hp

theorem render_injective (r : Bool) (T₁ T₂ : List GoString)
    (h₁ : ∀ s ∈ T₁, slash ∉ s) (h₂ : ∀ s ∈ T₂, slash ∉ s) (hn₁ : T₁ ≠ []) (hn₂ : T₂ ≠ [])
    (h : render r T₁ = render r T₂) : T₁ = T₂ := by
  unfold render at h
  have h' := List.append_cancel_left h
  have e₁ := List.splitOn_intercalate T₁.reverse slash
    (fun l hl => h₁ l (List.mem_reverse.mp hl)) (by simpa using hn₁)
  have e₂ := List.splitOn_intercalate T₂.reverse slash
    (fun l hl => h₂ l (List.mem_reverse.mp hl)) (by simpa using hn₂)
  rw [h', e₂] at e₁
  exact List.reverse_injective e₁.symm

theorem render_push (r : Bool) (T : List GoString) (seg : GoString) (hne : T ≠ []) :
    render r (seg :: T) = render r T ++ [slash] ++ seg := by
  unfold render
  rw [List.reverse_cons, intercalate_append_single _ _ (by simpa using hne)]
  simp

theorem getPath_clean_mount (c : Controller) (f : Bool) (w : World) (id : resourceIdentifier)
    (hid : PlainIdentity id) (hclean : Clean c.mountPath = c.mountPath)
    (hroot : c.mountPath ≠ [slash]) (hdot : c.mountPath ≠ [dot]) :
    (c.getPath f w id).1 =
      c.mountPath ++ [slash] ++ id.nspace ++ [slash] ++ id.name ++ pharSuffix := by
  rw [getPath_plain c f w id hid.1 hid.2]
  have hm : c.mountPath ≠ [] := by
    intro h
    rw [h] at hclean
    simp [Clean] at hclean
  have hr : render (isRooted c.mountPath) (cleanStack (isRooted c.mountPath) c.mountPath) =
      c.mountPath := by
    unfold Clean at hclean
    simp only [hm, if_false] at hclean
    by_cases ho : render (isRooted c.mountPath) (cleanStack (isRooted c.mountPath) c.mountPath) = []
    · simp only [ho, if_true] at hclean
      exact absurd hclean.symm hdot
    · simpa only [ho, if_false] using hclean
  have hS : cleanStack (isRooted c.mountPath) c.mountPath ≠ [] := by
    intro h
    rw [h] at hr
    cases hb : isRooted c.mountPath with
    | true =>
      rw [hb] at hr
      exact hroot (by rw [← hr]; rfl)
    | false =>
      rw [hb] at hr
      exact hm (by rw [← hr]; rfl)
  rw [render_push _ _ _ (by simp), render_push _ _ _ hS, hr]
  simp

/-- A first install reports its checksum: with inline data `[2]`, no file and no stored
checksum, the run calls `downloadPlugin`, leaves `[2]` on disk and sends one store update
carrying the CRC-32 of `[2]`. -/
theorem reconcile_fresh_install_reports_checksum :
    (exController.reconcile (Env.quiet (.found exInlineNew) .transportError) exFresh exId).events =
        [.downloadPlugin exPath, .writeFile exPath, .update exId (crc32IEEE [2])] ∧
      (exController.reconcile (Env.quiet (.found exInlineNew) .transportError) exFresh exId).files
        exPath = some [2] := by
  decide

/-! # The claims -/

/-! ## C1: a file in sync is left alone -/

/-- C1, counterexample.  The resource is found, the file `/m/n/p.phar` exists and holds `[1]`,
and the stored checksum is the CRC-32 of `[1]`, but `os.Open` fails when `reconcile` takes
the checksum: `downloadPlugin` is called and the file then holds the inline data `[2]`. -/
theorem reconcile_unreadable_in_sync_file_downloads :
    exUnreadable.get = .found exInline ∧
      exWorld.files (exController.getPath exUnreadable.mkdirFails exWorld exId).1 = some [1] ∧
      exInline.Status.ExpectedChecksum = some (crc32IEEE (hashBaseOf exInline ++ [1])) ∧
      Event.downloadPlugin exPath ∈ (exController.reconcile exUnreadable exWorld exId).events ∧
      (exController.reconcile exUnreadable exWorld exId).files exPath = some [2] :=
  ⟨rfl, by decide, by decide, by decide, by decide⟩

/-- C1, as amended.  When the resource is found, a file with bytes `content` is at the resolved
path, the stored `ExpectedChecksum` is the CRC-32 of `hashBase ++ content`, and neither
`os.Stat` nor the open and the reads of the first checksum fail, `reconcile` leaves every
file as it was and adds to the record no download event (call of `downloadPlugin`, file
write, request) and no store update. -/
theorem reconcile_in_sync_is_noop (c : Controller) (env : Env) (w : World)
    (id : resourceIdentifier) (plugin : Plugin) (content : List Byte)
    (hget : env.get = .found plugin)
    (hfile : w.files (c.getPath env.mkdirFails w id).1 = some content)
    (hsum : plugin.Status.ExpectedChecksum = some (crc32IEEE (hashBaseOf plugin ++ content)))
    (hstat : env.statFails = false)
    (hopen : env.firstSum.openFails = false) (hread : none ∉ env.firstSum.reads) :
    (c.reconcile env w id).files = w.files ∧
      ∃ added, (c.reconcile env w id).events = w.events ++ added ∧
        ∀ e ∈ added, e.isDownload = false ∧ e.isUpdate = false := by
  have hfiles := getPath_files c env.mkdirFails w id
  obtain ⟨added, hev, hadd, -⟩ := getPath_events c env.mkdirFails w id
  have hrec : c.reconcile env w id = (c.getPath env.mkdirFails w id).2 := by
    unfold Controller.reconcile
    rcases hgp : c.getPath env.mkdirFails w id with ⟨path, w₁⟩
    rw [hgp] at hfiles hfile
    simp only at hfiles hfile
    have hfile₁ : w₁.files path = some content := by rw [hfiles]; exact hfile
    have hc := crc32File_complete env.firstSum (hashBaseOf plugin) w₁ path content hopen hread hfile₁
    simp [hget, fileExists_eq, hstat, hfile₁, hsum, hc]
  rw [hrec]
  refine ⟨hfiles, added, hev, ?_⟩
  intro e he
  rw [hadd e he]
  exact ⟨rfl, rfl⟩

/-- C1, witness: the amended statement at the mount whose file `[1]` matches the stored
checksum, in an environment where nothing fails. -/
theorem reconcile_in_sync_is_noop_witness :
    (exController.reconcile (Env.quiet (.found exInline) .transportError) exWorld exId).files =
        exWorld.files ∧
      ∃ added,
        (exController.reconcile (Env.quiet (.found exInline) .transportError) exWorld exId).events =
          exWorld.events ++ added ∧
        ∀ e ∈ added, e.isDownload = false ∧ e.isUpdate = false :=
  reconcile_in_sync_is_noop exController (Env.quiet (.found exInline) .transportError) exWorld
    exId exInline [1] rfl (by decide) (by decide) rfl rfl (by decide)

/-! ## C2: the drain returns the distinct identities notified -/

/-- C2.  After any sequence of `notify` calls on a handler with an empty pending set (whatever
the channel holds), `clear` returns exactly the set of the identities notified: its
cardinality is the number of distinct identities, an identity is in it if and only if
some notified object carries it, and a second `clear` right after returns the empty set. -/
theorem drain_returns_distinct_notified (n : Nat) (objs : List Plugin) :
    (notifyAll ⟨∅, n⟩ objs).clear.1 = (objs.map newResourceIdentifier).toFinset ∧
      (notifyAll ⟨∅, n⟩ objs).clear.1.card = (objs.map newResourceIdentifier).dedup.length ∧
      (∀ id, id ∈ (notifyAll ⟨∅, n⟩ objs).clear.1 ↔
        ∃ obj ∈ objs, newResourceIdentifier obj = id) ∧
      (notifyAll ⟨∅, n⟩ objs).clear.2.clear.1 = ∅ := by
  have h1 : (notifyAll ⟨∅, n⟩ objs).clear.1 = (objs.map newResourceIdentifier).toFinset := by
    rw [clear_fst, notifyAll_set]
    simp
  refine ⟨h1, ?_, ?_, ?_⟩
  · rw [h1, List.card_toFinset]
  · intro id
    rw [h1]
    simp
  · rw [clear_fst, clear_snd_set]

/-! ## C3: the URL as a salt of the checksum -/

/-- C3, counterexample.  The URLs `http://a/xs4ibwwl` and `http://a/adwoqc8j` differ, and
`crc32File` gives the same checksum with either as hash base over the same file. -/
theorem checksum_collides_on_distinct_urls :
    exUrlA ≠ exUrlB ∧
      exWorld.files exPath = some [1] ∧
      crc32File (ReadPlan.ofSizes []) exUrlA exWorld exPath =
        crc32File (ReadPlan.ofSizes []) exUrlB exWorld exPath :=
  ⟨by decide, by decide, by decide⟩

/-- C3, as amended.  Over the same file bytes, read without fault in any chunking, the checksums
with hash bases `urlA` and `urlB` differ if and only if the CRC-32 of `urlA` and the CRC-32
of `urlB` differ; URLs with equal CRC-32 are not told apart. -/
theorem checksum_differs_iff_url_checksums_differ (urlA urlB : GoString)
    (content : List Byte) (sizesA sizesB : List Nat) (w : World) (path : GoString)
    (hf : w.files path = some content) :
    crc32File (ReadPlan.ofSizes sizesA) urlA w path ≠
        crc32File (ReadPlan.ofSizes sizesB) urlB w path ↔
      crc32IEEE urlA ≠ crc32IEEE urlB := by
  rw [crc32File_complete _ urlA w path content rfl (by simp [ReadPlan.ofSizes]) hf,
    crc32File_complete _ urlB w path content rfl (by simp [ReadPlan.ofSizes]) hf]
  rw [Ne, Ne, Except.ok.injEq, crc32IEEE_append_eq_iff]

/-- C3, witness: the hash bases `[1]` and `[2]` have different CRC-32, so the checksums over the
file `[1]` differ. -/
theorem checksum_differs_iff_url_checksums_differ_witness :
    exWorld.files exPath = some [1] ∧
      crc32File (ReadPlan.ofSizes []) [1] exWorld exPath ≠
        crc32File (ReadPlan.ofSizes [0]) [2] exWorld exPath :=
  ⟨by decide,
    (checksum_differs_iff_url_checksums_differ [1] [2] [1] [] [0] exWorld exPath
      (by decide)).mpr (by decide)⟩

/-! ## C4: a failed fetch leaves the file -/

/-- C4.  When the resource is found and its source is HTTP with no inline data, and the request
ends in a transport error or in a status outside 200..299, `reconcile` leaves every file as
it was (whatever was or was not at the resolved path) and adds no store update to the
record. -/
theorem reconcile_failed_fetch_keeps_file (c : Controller) (env : Env) (w : World)
    (id : resourceIdentifier) (plugin : Plugin) (http : PluginHttpSource)
    (hget : env.get = .found plugin)
    (hdata : plugin.Spec.Source.Data = []) (hhttp : plugin.Spec.Source.Http = some http)
    (hfail : env.http = .transportError ∨
      ∃ code body, env.http = .response code body ∧ (code < 200 ∨ 300 ≤ code)) :
    (c.reconcile env w id).files = w.files ∧
      ∃ added, (c.reconcile env w id).events = w.events ++ added ∧
        ∀ e ∈ added, e.isUpdate = false := by
  have hfiles := getPath_files c env.mkdirFails w id
  obtain ⟨mk, hev, hmk, -⟩ := getPath_events c env.mkdirFails w id
  rcases reconcile_found_cases c env w id plugin hget with ⟨-, -, hrec⟩ | ⟨w₂, hf₂, -, ⟨pre, hpre, hprop⟩, hrec⟩
  · rw [hrec]
    refine ⟨hfiles, mk, hev, ?_⟩
    intro e he
    rw [hmk e he]
    rfl
  · rw [hrec]
    obtain ⟨hdf, -, added, hadd, hup⟩ :=
      downloadAndReport_spec env id plugin (c.getPath env.mkdirFails w id).1 w₂
    obtain ⟨hne, hkeep⟩ := downloadPlugin_http_failure env plugin.Spec.Source
      (c.getPath env.mkdirFails w id).1 w₂ http hdata hhttp hfail
    refine ⟨by rw [hdf, hkeep, hf₂], mk ++ pre ++ added, by rw [hadd, hpre, hev]; simp, ?_⟩
    intro e he
    simp only [List.mem_append] at he
    rcases he with (he | he) | he
    · rw [hmk e he]; rfl
    · exact (hprop e he).2
    · exact isUpdate_false_of_not_mem added (fun id' ck hmem => hne (hup id' ck hmem).2.1) e he

/-- C4, witness: an HTTP source answered with status 404 over the mount holding `[1]`. -/
theorem reconcile_failed_fetch_keeps_file_witness :
    (exController.reconcile (Env.quiet (.found exHttp) (.response 404 [])) exWorld exId).files =
        exWorld.files ∧
      ∃ added,
        (exController.reconcile (Env.quiet (.found exHttp) (.response 404 [])) exWorld
            exId).events = exWorld.events ++ added ∧
        ∀ e ∈ added, e.isUpdate = false :=
  reconcile_failed_fetch_keeps_file exController (Env.quiet (.found exHttp) (.response 404 []))
    exWorld exId exHttp ⟨exUrlA, 60⟩ rfl rfl rfl (Or.inr ⟨404, [], rfl, Or.inr (by decide)⟩)

/-! ## C5: inline data -/

/-- C5, counterexample.  The spec is the inline data `[2]`, the file holds `[1]` and the stored
checksum is the CRC-32 of `[1]`: nothing fails, `reconcile` takes the no-op branch, and the
file still holds `[1]`. -/
theorem reconcile_inline_in_sync_keeps_old_bytes :
    exInline.Spec.Source = ⟨none, [2]⟩ ∧
      (exController.reconcile (Env.quiet (.found exInline) .transportError) exWorld exId).files
        exPath = some [1] :=
  ⟨rfl, by decide⟩

/-- C5, as amended.  When the resource is found with non-empty inline data `D`, the write of the
destination does not fail, and no file other than `D` is at the resolved path with the CRC-32
of `hashBase ++ its bytes` equal to the stored `ExpectedChecksum`, then after `reconcile`
the file at the resolved path holds exactly `D`. -/
theorem reconcile_inline_writes_data (c : Controller) (env : Env) (w : World)
    (id : resourceIdentifier) (plugin : Plugin)
    (hget : env.get = .found plugin)
    (hdata : plugin.Spec.Source.Data ≠ [])
    (hwrite : env.write = .none)
    (hsync : ∀ content, w.files (c.getPath env.mkdirFails w id).1 = some content →
      plugin.Status.ExpectedChecksum = some (crc32IEEE (hashBaseOf plugin ++ content)) →
      content = plugin.Spec.Source.Data) :
    (c.reconcile env w id).files (c.getPath env.mkdirFails w id).1 =
      some plugin.Spec.Source.Data := by
  have hfiles := getPath_files c env.mkdirFails w id
  rcases reconcile_found_cases c env w id plugin hget with
    ⟨-, ⟨cksum, hsum, hexp⟩, hrec⟩ | ⟨w₂, hf₂, -, -, hrec⟩
  · rw [hrec]
    obtain ⟨content, hc, hck⟩ := crc32File_ok _ _ _ _ _ hsum
    rw [hfiles] at hc
    have := hsync content hc (by rw [hexp, hck])
    rw [hfiles, hc, this]
  · rw [hrec]
    obtain ⟨hdf, -⟩ := downloadAndReport_spec env id plugin (c.getPath env.mkdirFails w id).1 w₂
    rw [hdf]
    exact (downloadPlugin_inline env plugin.Spec.Source _ w₂ hdata hwrite).2

/-- C5, witness: inline data `[2]` on a mount without the file. -/
theorem reconcile_inline_writes_data_witness :
    (exController.reconcile (Env.quiet (.found exInline) .transportError) exFresh exId).files
        (exController.getPath false exFresh exId).1 = some [2] :=
  reconcile_inline_writes_data exController (Env.quiet (.found exInline) .transportError) exFresh
    exId exInline rfl (by decide) rfl (fun content h => by simp [exFresh] at h)

/-! ## C6: deletion -/

/-- C6, counterexample.  The store answers NotFound, neither a file nor a directory is at
the resolved path and nothing fails, yet the filesystem changes: `getPath` creates the
namespace directory `/m/n`. -/
theorem reconcile_not_found_creates_namespace_dir :
    (Env.quiet .notFound .transportError).get = .notFound ∧
      exFresh.files (exController.getPath false exFresh exId).1 = none ∧
      exFresh.dirs (exController.getPath false exFresh exId).1 = false ∧
      exFresh.dirs exDir = false ∧
      (exController.reconcile (Env.quiet .notFound .transportError) exFresh exId).dirs exDir =
        true :=
  ⟨rfl, by decide, by decide, by decide, by decide⟩

/-- C6, as amended.  When the store answers NotFound: if `os.Remove` does not fail, no file
is at the resolved path afterwards, and no directory either when no file was there (an
empty directory found at the path is removed like a file); if no file was there, no file
changes; no file at another path changes; no directory changes other than the namespace
directory, which `getPath` may create, and a directory at the resolved path; with no
directory at the resolved path, only the namespace directory can change; the record gains
no download event and no store update; and when neither a file nor a directory was at the
resolved path, which is not the namespace directory itself, no error is reported provided
`os.Mkdir` does not fail and `os.Stat` or `os.Remove` does not fail. -/
theorem reconcile_not_found_removes_file (c : Controller) (env : Env) (w : World)
    (id : resourceIdentifier) (hget : env.get = .notFound) :
    (env.removeFails = false →
        (c.reconcile env w id).files (c.getPath env.mkdirFails w id).1 = none ∧
        (w.files (c.getPath env.mkdirFails w id).1 = none →
          (c.reconcile env w id).dirs (c.getPath env.mkdirFails w id).1 = false)) ∧
      (w.files (c.getPath env.mkdirFails w id).1 = none →
        (c.reconcile env w id).files = w.files) ∧
      (∀ p, p ≠ (c.getPath env.mkdirFails w id).1 →
        (c.reconcile env w id).files p = w.files p) ∧
      (∀ p, p ≠ Join c.mountPath id.nspace → p ≠ (c.getPath env.mkdirFails w id).1 →
        (c.reconcile env w id).dirs p = w.dirs p) ∧
      (w.dirs (c.getPath env.mkdirFails w id).1 = false →
        ∀ p, p ≠ Join c.mountPath id.nspace → (c.reconcile env w id).dirs p = w.dirs p) ∧
      ∃ added, (c.reconcile env w id).events = w.events ++ added ∧
        (∀ e ∈ added, e.isDownload = false ∧ e.isUpdate = false) ∧
        (w.files (c.getPath env.mkdirFails w id).1 = none →
          w.dirs (c.getPath env.mkdirFails w id).1 = false →
          (c.getPath env.mkdirFails w id).1 ≠ Join c.mountPath id.nspace →
          env.mkdirFails = false → (env.statFails = false ∨ env.removeFails = false) →
          ∀ e ∈ added, e.isError = false) := by
  obtain ⟨⟨added, hadd, hprop, hquiet⟩, hrem, hremdir, hnone, hother, hdirs, hback⟩ :=
    reconcile_notFound_spec c env w id hget
  refine ⟨fun h => ⟨hrem h, hremdir h⟩, hnone, hother, ?_, ?_, added, hadd, hprop, ?_⟩
  · intro p hp hpp
    rw [hdirs p hpp]
    exact getPath_dirs c env.mkdirFails w id p hp
  · intro hno p hp
    by_cases hpp : p = (c.getPath env.mkdirFails w id).1
    · have h₁ : (c.getPath env.mkdirFails w id).2.dirs p = w.dirs p :=
        getPath_dirs c env.mkdirFails w id p hp
      rw [hpp] at h₁ hp ⊢
      rw [hno] at h₁
      rw [hno]
      cases hd : (c.reconcile env w id).dirs (c.getPath env.mkdirFails w id).1 with
      | false => rfl
      | true =>
        have := hback hd
        rw [h₁] at this
        exact absurd this (by simp)
    · rw [hdirs p hpp]
      exact getPath_dirs c env.mkdirFails w id p hp
  · intro hfile hdir hne hmk hor
    have h₁ : (c.getPath env.mkdirFails w id).2.dirs (c.getPath env.mkdirFails w id).1 = false := by
      rw [getPath_dirs c env.mkdirFails w id _ hne]
      exact hdir
    exact hquiet hfile h₁ hmk hor

/-- C6, witness: the file `[1]` is removed when the store answers NotFound and nothing
fails. -/
theorem reconcile_not_found_removes_file_witness :
    exWorld.files (exController.getPath false exWorld exId).1 = some [1] ∧
      (exController.reconcile (Env.quiet .notFound .transportError) exWorld exId).files
        (exController.getPath false exWorld exId).1 = none :=
  ⟨by decide,
    ((reconcile_not_found_removes_file exController (Env.quiet .notFound .transportError)
      exWorld exId rfl).1 rfl).1⟩

/-! ## C7: the checksum is written only after a verified write -/

/-- C7.  In every run of `reconcile`, each store update in the record is for the identity
reconciled, the resource was found, `downloadPlugin` returned no error, the checksum taken
after it succeeded, the checksum written is the CRC-32 of `hashBase ++ content` for the
bytes `content` the file holds after the download (and at the end of the run), and it is
new: none was stored or the stored one differs.  When `downloadPlugin` returns an error
(a failed write or request, or an invalid source), the record gains no store update. -/
theorem reconcile_update_only_after_verified_write (c : Controller) (env : Env) (w : World)
    (id : resourceIdentifier) :
    ∃ added, (c.reconcile env w id).events = w.events ++ added ∧
      (∀ id' cksum, Event.update id' cksum ∈ added →
        id' = id ∧
        ∃ plugin before content,
          env.get = .found plugin ∧ before.files = w.files ∧
          (downloadPlugin env plugin.Spec.Source (c.getPath env.mkdirFails w id).1
            before).1 = none ∧
          (c.reconcile env w id).files =
            (downloadPlugin env plugin.Spec.Source (c.getPath env.mkdirFails w id).1
              before).2.files ∧
          (c.reconcile env w id).files (c.getPath env.mkdirFails w id).1 = some content ∧
          crc32File env.secondSum (hashBaseOf plugin)
            (downloadPlugin env plugin.Spec.Source (c.getPath env.mkdirFails w id).1 before).2
            (c.getPath env.mkdirFails w id).1 = .ok cksum ∧
          cksum = crc32IEEE (hashBaseOf plugin ++ content) ∧
          (plugin.Status.ExpectedChecksum = none ∨
            some cksum ≠ plugin.Status.ExpectedChecksum)) ∧
      (∀ plugin before, env.get = .found plugin →
        (downloadPlugin env plugin.Spec.Source (c.getPath env.mkdirFails w id).1
          before).1 ≠ none →
        ∀ e ∈ added, e.isUpdate = false) := by
  obtain ⟨mk, hev, hmk, -⟩ := getPath_events c env.mkdirFails w id
  have hmkup : ∀ id' ck, Event.update id' ck ∉ mk := by
    intro id' ck hmem
    have := hmk _ hmem
    simp at this
  cases hget : env.get with
  | otherError =>
    refine ⟨mk ++ [.logError .fetch], ?_, ?_, ?_⟩
    · simp [Controller.reconcile, hget, World.emit, hev]
    · intro id' ck hmem
      simp at hmem
      exact absurd hmem (hmkup _ _)
    · intro plugin before hp
      simp at hp
  | notFound =>
    obtain ⟨⟨added, hadd, hprop, -⟩, -⟩ := reconcile_notFound_spec c env w id hget
    refine ⟨added, hadd, ?_, ?_⟩
    · intro id' ck hmem
      have := (hprop _ hmem).2
      simp [Event.isUpdate] at this
    · intro plugin before hp
      simp at hp
  | found plugin =>
    rcases reconcile_found_cases c env w id plugin hget with
      ⟨-, -, hrec⟩ | ⟨w₂, hf₂, -, ⟨pre, hpre, hprop⟩, hrec⟩
    · refine ⟨mk, by rw [hrec, hev], ?_, ?_⟩
      · intro id' ck hmem
        exact absurd hmem (hmkup _ _)
      · intro _ _ _ _
        exact isUpdate_false_of_not_mem mk hmkup
    · obtain ⟨hdf, -, added, hadd, hup⟩ :=
        downloadAndReport_spec env id plugin (c.getPath env.mkdirFails w id).1 w₂
      have hpreup : ∀ id' ck, Event.update id' ck ∉ pre := by
        intro id' ck hmem
        have := (hprop _ hmem).2
        simp [Event.isUpdate] at this
      refine ⟨mk ++ pre ++ added, by rw [hrec, hadd, hpre, hev]; simp, ?_, ?_⟩
      · intro id' ck hmem
        simp only [List.mem_append] at hmem
        rcases hmem with (hmem | hmem) | hmem
        · exact absurd hmem (hmkup _ _)
        · exact absurd hmem (hpreup _ _)
        · obtain ⟨hid, hok, hsum, hnew⟩ := hup id' ck hmem
          obtain ⟨content, hc, hck⟩ := crc32File_ok _ _ _ _ _ hsum
          refine ⟨hid, plugin, w₂, content, rfl, hf₂, hok, ?_, ?_, hsum, hck, hnew⟩
          · rw [hrec, hdf]
          · rw [hrec, hdf, hc]
      · intro plugin' before hp hfail e he
        injection hp with hp
        subst hp
        rw [downloadPlugin_result_indep env _ _ before w₂] at hfail
        simp only [List.mem_append] at he
        rcases he with (he | he) | he
        · exact isUpdate_false_of_not_mem mk hmkup e he
        · exact (hprop e he).2
        · exact isUpdate_false_of_not_mem added
            (fun id' ck hmem => hfail (hup id' ck hmem).2.1) e he

/-! ## C8: the wake-up slot -/

/-- C8.  In every state reached by interleaving `notify`, receive and `clear` steps from the
empty handler: a `notify` step is enabled for every object (it never blocks) and records
its identity; a step removes identities from the pending set only when it is the `clear`
that returns the whole set; the channel holds at most `notifierCap = 1` values; and when
the consumer waits in the `select` (not between a receive and its `clear`), a non-empty
pending set implies that the channel holds a wake-up. -/
theorem wakeup_single_slot_and_no_identity_lost (s : LoopState) (hs : Reachable s) :
    (∀ obj, ∃ t, Step s (.notify obj) t ∧ newResourceIdentifier obj ∈ t.handler.set) ∧
      (∀ a t, Step s a t →
        s.handler.set ⊆ t.handler.set ∨ (a = .clear ∧ s.handler.clear.1 = s.handler.set)) ∧
      s.handler.updateNotifier ≤ notifierCap ∧
      (s.draining = false → s.handler.set.Nonempty → s.handler.updateNotifier = 1) := by
  refine ⟨?_, ?_, loop_invariant s hs⟩
  · intro obj
    exact ⟨_, Step.notify s obj, by simp [pluginEventHandler.notify]⟩
  · intro a t hstep
    cases hstep with
    | notify obj => exact Or.inl (by simp [pluginEventHandler.notify])
    | receive hw hn => exact Or.inl (Finset.Subset.refl _)
    | clear hd => exact Or.inr ⟨rfl, clear_fst s.handler⟩

/-- C8, witness: after one `notify` from the initial state the consumer waits, the pending
set is non-empty, and the channel holds one wake-up. -/
theorem wakeup_single_slot_and_no_identity_lost_witness :
    Reachable exNotified ∧ exNotified.handler.updateNotifier = 1 :=
  ⟨Reachable.step (.notify exInline) Reachable.init (Step.notify LoopState.init exInline),
    (wakeup_single_slot_and_no_identity_lost exNotified
      (Reachable.step (.notify exInline) Reachable.init
        (Step.notify LoopState.init exInline))).2.2.2 rfl ⟨exId, by decide⟩⟩

/-! ## C9: the checksum of a file -/

/-- C9.  For every hash base `id`, every file content and every sequence of read sizes (each
read returns between one byte and the 4096 bytes of the buffer), `crc32File` returns the
CRC-32 (IEEE) of `id ++ content`; and under every plan of reads, faults included, a
checksum that `crc32File` returns is that value. -/
theorem crc32File_is_crc32_of_concatenation (id : GoString) (content : List Byte)
    (sizes : List Nat) (w : World) (path : GoString) (hf : w.files path = some content) :
    crc32File (ReadPlan.ofSizes sizes) id w path = .ok (crc32IEEE (id ++ content)) ∧
      ∀ plan cksum, crc32File plan id w path = .ok cksum →
        cksum = crc32IEEE (id ++ content) := by
  refine ⟨crc32File_complete _ id w path content rfl (by simp [ReadPlan.ofSizes]) hf, ?_⟩
  intro plan cksum h
  obtain ⟨content', hc, hck⟩ := crc32File_ok plan id w path cksum h
  rw [hf] at hc
  injection hc with hc
  rw [hck, hc]

/-- C9, witness: a file of 5000 bytes, read in chunks of 1, 100, 4096 and 803 bytes. -/
theorem crc32File_is_crc32_of_concatenation_witness :
    exLarge.files exPath = some (List.replicate 5000 7) ∧
      crc32File (ReadPlan.ofSizes [0, 99, 4095]) exUrlA exLarge exPath =
        .ok (crc32IEEE (exUrlA ++ List.replicate 5000 7)) :=
  ⟨rfl,
    (crc32File_is_crc32_of_concatenation exUrlA (List.replicate 5000 7) [0, 99, 4095] exLarge
      exPath rfl).1⟩

/-! ## C10: paths of different identities -/

/-- C10, counterexample.  The identities (`a/b`, `c`) and (`a`, `b/c`) differ and `getPath`
gives both the path `/m/a/b/c.phar`. -/
theorem getPath_collides_with_slash_in_identity :
    exSlashA ≠ exSlashB ∧
      (exController.getPath false exFresh exSlashA).1 =
        [47, 109, 47, 97, 47, 98, 47, 99, 46, 112, 104, 97, 114] ∧
      (exController.getPath false exFresh exSlashB).1 =
        [47, 109, 47, 97, 47, 98, 47, 99, 46, 112, 104, 97, 114] :=
  ⟨by decide, by decide, by decide⟩

/-- C10, as amended.  For every mount path and every two different identities whose namespaces
are plain path elements (not empty, not `.`, not `..`, no slash) and whose names contain no
slash, `getPath` returns different paths; and when the mount path is clean (`path.Clean`
leaves it unchanged) and is neither `/` nor `.`, the path is
`<mountPath>/<namespace>/<name>.phar`. -/
theorem getPath_disjoint_on_plain (c : Controller) (f₁ f₂ : Bool) (w₁ w₂ : World)
    (id₁ id₂ : resourceIdentifier) (h₁ : PlainIdentity id₁) (h₂ : PlainIdentity id₂)
    (hne : id₁ ≠ id₂) :
    (c.getPath f₁ w₁ id₁).1 ≠ (c.getPath f₂ w₂ id₂).1 ∧
      (Clean c.mountPath = c.mountPath → c.mountPath ≠ [slash] → c.mountPath ≠ [dot] →
        (c.getPath f₁ w₁ id₁).1 =
          c.mountPath ++ [slash] ++ id₁.nspace ++ [slash] ++ id₁.name ++ pharSuffix) := by
  refine ⟨?_, getPath_clean_mount c f₁ w₁ id₁ h₁⟩
  intro h
  rw [getPath_plain c f₁ w₁ id₁ h₁.1 h₁.2, getPath_plain c f₂ w₂ id₂ h₂.1 h₂.2] at h
  have hS := wellFormed_elem _ _ (wellFormed_cleanStack (isRooted c.mountPath) c.mountPath)
  have hel : ∀ (id : resourceIdentifier), PlainIdentity id →
      ∀ s ∈ (id.name ++ pharSuffix) :: id.nspace ::
        cleanStack (isRooted c.mountPath) c.mountPath, slash ∉ s := by
    intro id hid s hs
    rcases List.mem_cons.mp hs with e | hs
    · rw [e]; exact (pharSuffix_plain id.name hid.2).2.2.2
    · rcases List.mem_cons.mp hs with e | hs
      · rw [e]; exact hid.1.2.2.2
      · exact (hS s hs).2
  have := render_injective _ _ _ (hel id₁ h₁) (hel id₂ h₂) (by simp) (by simp) h
  simp only [List.cons.injEq] at this
  obtain ⟨hname, hns, -⟩ := this
  have hname' : id₁.name = id₂.name := List.append_cancel_right hname
  apply hne
  cases id₁
  cases id₂
  simp_all

/-- C10, witness: the identities (`n`, `p`) and (`n`, `q`) under the mount path `/m`. -/
theorem getPath_disjoint_on_plain_witness :
    exId ≠ exOther ∧
      (exController.getPath false exFresh exId).1 ≠
        (exController.getPath false exFresh exOther).1 ∧
      (exController.getPath false exFresh exId).1 =
        exMount ++ [slash] ++ exId.nspace ++ [slash] ++ exId.name ++ pharSuffix :=
  ⟨by decide,
    (getPath_disjoint_on_plain exController false false exFresh exFresh exId exOther
      ⟨⟨by decide, by decide, by decide, by decide⟩, by decide⟩
      ⟨⟨by decide, by decide, by decide, by decide⟩, by decide⟩ (by decide)).1,
    (getPath_disjoint_on_plain exController false false exFresh exFresh exId exOther
      ⟨⟨by decide, by decide, by decide, by decide⟩, by decide⟩
      ⟨⟨by decide, by decide, by decide, by decide⟩, by decide⟩ (by decide)).2
      (by decide) (by decide) (by decide)⟩

end PluginDownloader
